import Mathlib

/-!
Verification of the glossary generator
(`.github/workflows/glossario_parser.lua`) of the `Test_Web` repository.

The Lua script is embedded shallowly: Lua strings become `List Char`, each
`string.gsub` call with a fixed pattern becomes a recursive scanner that
mirrors Lua's left-to-right, non-overlapping match semantics (after a match
the scan resumes after the matched text; after a failed match attempt the
scan advances one character), `string.gmatch` becomes an explicit loop over
an earliest-match finder, and `table.sort` is translated from the reference
implementation of Lua's quicksort (`auxsort`/`partition` in `ltablib.c`,
deterministic for the small inputs at hand).  File I/O and the console are
modelled by explicit state threaded through `mainRun`.
-/

/-! ## The escaper (`convert_latex_to_html`, lines 52-66) -/

/-- `text:gsub("\\textit%{([^}]+)%}", "<i>" .. content .. "</i>")`.
The first argument is fuel; one unit is spent per character advanced, so
`text.length + 1` always suffices.  A match needs a non-empty capture of
non-`}` characters followed by `}`; otherwise the scan advances one
character past the `\`, exactly as Lua does on a failed match attempt. -/
def expandTextit : Nat → List Char → List Char
  | 0, l => l
  | fuel + 1, l =>
    match l with
    | [] => []
    | '\\' :: 't' :: 'e' :: 'x' :: 't' :: 'i' :: 't' :: '{' :: rest =>
      (match rest.takeWhile (fun c => c ≠ '}'), rest.dropWhile (fun c => c ≠ '}') with
       | c0 :: ctail, '}' :: rest3 =>
         '<' :: 'i' :: '>' :: (c0 :: ctail) ++
           '<' :: '/' :: 'i' :: '>' :: expandTextit fuel rest3
       | _, _ =>
         '\\' :: expandTextit fuel
           ('t' :: 'e' :: 'x' :: 't' :: 'i' :: 't' :: '{' :: rest))
    | c :: rest => c :: expandTextit fuel rest

/-- `text:gsub("&", "&amp;")`. -/
def gsubAmp : List Char → List Char
  | [] => []
  | '&' :: rest => '&' :: 'a' :: 'm' :: 'p' :: ';' :: gsubAmp rest
  | c :: rest => c :: gsubAmp rest

/-- `text:gsub("<([^i/])", "&lt;%1")`: a `<` is escaped when the next
character exists and is neither `i` nor `/`; the captured character is
re-emitted verbatim and the scan resumes after it. -/
def gsubLt : List Char → List Char
  | [] => []
  | '<' :: c :: rest =>
    if c = 'i' ∨ c = '/' then '<' :: gsubLt (c :: rest)
    else '&' :: 'l' :: 't' :: ';' :: c :: gsubLt rest
  | c :: rest => c :: gsubLt rest

/-- `text:gsub("<$", "&lt;")`: only a `<` that is the last character. -/
def gsubLtEnd : List Char → List Char
  | [] => []
  | ['<'] => ['&', 'l', 't', ';']
  | c :: rest => c :: gsubLtEnd rest

/-- `text:gsub("([^i])>", "%1&gt;")`: a `>` is escaped when preceded by a
character other than `i`; both characters are consumed by the match. -/
def gsubGt : List Char → List Char
  | [] => []
  | c :: '>' :: rest =>
    if c = 'i' then c :: gsubGt ('>' :: rest)
    else c :: '&' :: 'g' :: 't' :: ';' :: gsubGt rest
  | c :: rest => c :: gsubGt rest

/-- `text:gsub("^>", "&gt;")`: anchored, so at most the leading `>`. -/
def gsubGtStart : List Char → List Char
  | '>' :: rest => '&' :: 'g' :: 't' :: ';' :: rest
  | l => l

/-- `text:gsub('"', "&quot;")`. -/
def gsubQuot : List Char → List Char
  | [] => []
  | '"' :: rest => '&' :: 'q' :: 'u' :: 'o' :: 't' :: ';' :: gsubQuot rest
  | c :: rest => c :: gsubQuot rest

/-- `text:gsub("'", "&#39;")`. -/
def gsubApos : List Char → List Char
  | [] => []
  | '\'' :: rest => '&' :: '#' :: '3' :: '9' :: ';' :: gsubApos rest
  | c :: rest => c :: gsubApos rest

/-- Lines 57-63 of the script: the escaping passes, in source order. -/
def escapeChain (text : List Char) : List Char :=
  gsubApos (gsubQuot (gsubGtStart (gsubGt (gsubLtEnd (gsubLt (gsubAmp text))))))

/-- `convert_latex_to_html` (lines 52-66): macro expansion, then escaping. -/
def convert_latex_to_html (text : List Char) : List Char :=
  escapeChain (expandTextit (text.length + 1) text)

/-- Does a (complete) `\textit{...}` emphasis macro match start exactly at
the head of the text?  Used only to state hypotheses of the form "the text
contains no emphasis macro". -/
def textitMatchAt : List Char → Bool
  | '\\' :: 't' :: 'e' :: 'x' :: 't' :: 'i' :: 't' :: '{' :: rest =>
    (match rest.takeWhile (fun c => c ≠ '}'), rest.dropWhile (fun c => c ≠ '}') with
     | _ :: _, '}' :: _ => true
     | _, _ => false)
  | _ => false

/-- Does a `\textit{...}` emphasis macro occur anywhere in the text? -/
def hasTextitMacro : List Char → Bool
  | [] => false
  | c :: rest => textitMatchAt (c :: rest) || hasTextitMacro rest

/-- The five HTML-reserved characters handled by the escaper. -/
def reservedChars : List Char := ['&', '<', '>', '"', '\'']

/-! ## The term extractor (`parse_terms`, lines 69-90) -/

/-- Lua's `%s` character class (C `isspace` in the C locale). -/
def isLuaSpace (c : Char) : Bool :=
  c = ' ' ∨ c = '\t' ∨ c = '\n' ∨ c = '\x0b' ∨ c = '\x0c' ∨ c = '\r'

/-- `s:match("^%s*(.-)%s*$")`: strip leading and trailing `%s` characters. -/
def trimLua (l : List Char) : List Char :=
  ((l.dropWhile isLuaSpace).reverse.dropWhile isLuaSpace).reverse

/-- The `%s*([^\n]+)` part of the term pattern, applied after the closing
brace.  `%s*` matches greedily (and `%s` includes newlines); when the
remainder after the whitespace is empty, Lua backtracks the `*` one
character at a time, so `[^\n]+` captures the last whitespace character
that is not a newline, if any.  Returns the captured definition and the
remainder of the subject where the `gmatch` scan resumes. -/
def matchSpaceDef (rest : List Char) : Option (List Char × List Char) :=
  match rest.dropWhile isLuaSpace with
  | c0 :: after =>
    some ((c0 :: after).takeWhile (fun c => c ≠ '\n'),
          (c0 :: after).dropWhile (fun c => c ≠ '\n'))
  | [] =>
    -- the whole remainder is whitespace: backtrack inside it
    match (rest.reverse.dropWhile (fun c => c = '\n')) with
    | [] => none
    | c :: _ => some ([c], (rest.reverse.takeWhile (fun c => c = '\n')).reverse)

/-- Try to match `\term%{([^}]+)%}%s*([^\n]+)` starting exactly at the head
of the text.  Returns the two captures and the remainder on success. -/
def termMatchAt : List Char → Option ((List Char × List Char) × List Char)
  | '\\' :: 't' :: 'e' :: 'r' :: 'm' :: '{' :: rest =>
    (match rest.takeWhile (fun c => c ≠ '}'), rest.dropWhile (fun c => c ≠ '}') with
     | c0 :: ctail, '}' :: rest3 =>
       (match matchSpaceDef rest3 with
        | some (defCap, rem) => some (((c0 :: ctail), defCap), rem)
        | none => none)
     | _, _ => none)
  | _ => none

/-- Earliest match of the term pattern: try each position left to right. -/
def findTermMatch : List Char → Option ((List Char × List Char) × List Char)
  | [] => none
  | c :: rest =>
    match termMatchAt (c :: rest) with
    | some r => some r
    | none => findTermMatch rest

/-- The `gmatch` loop of line 73: repeatedly find the earliest match and
resume after it.  Fuel decreases once per match; every match consumes at
least one character, so `length + 1` fuel always suffices. -/
def gmatchTerms : Nat → List Char → List (List Char × List Char)
  | 0, _ => []
  | fuel + 1, l =>
    match findTermMatch l with
    | none => []
    | some (pair, rem) => pair :: gmatchTerms fuel rem

/-- A term/definition pair as stored by `parse_terms` (lines 78-81). -/
structure TermEntry where
  term : List Char
  definition : List Char
deriving DecidableEq, Repr

/-- Lines 73-83: scan all matches, trim both captures, keep a pair only if
both sides are non-empty after trimming (source order preserved). -/
def collectTerms (content : List Char) : List TermEntry :=
  (gmatchTerms (content.length + 1) content).filterMap (fun p =>
    let t := trimLua p.1
    let d := trimLua p.2
    if t ≠ [] ∧ d ≠ [] then some ⟨t, d⟩ else none)

/-! ### `table.sort` with the case-insensitive comparator (lines 86-88)

Lua's `table.sort` is the quicksort of `ltablib.c` (`auxsort` and
`partition`); it is not a stable sort.  For arrays shorter than 100
elements no pivot randomization takes place and every Lua version since
5.0 performs the same deterministic sequence of comparisons and swaps,
which is what `auxsortF` transcribes (0-based; Lua indexes from 1).
Fuel decreases once per recursion level; since every sub-interval is
strictly smaller, `length + 1` fuel always suffices. -/

/-- `string.lower`: ASCII lowercasing, applied bytewise. -/
def lowerChar (c : Char) : Char :=
  if 'A' ≤ c ∧ c ≤ 'Z' then Char.ofNat (c.toNat + 32) else c

/-- `s:lower()` on a Lua string. -/
def luaLower (l : List Char) : List Char := l.map lowerChar

/-- Lua `<` on strings: bytewise lexicographic comparison. -/
def listLtCh : List Char → List Char → Bool
  | [], [] => false
  | [], _ :: _ => true
  | _ :: _, [] => false
  | a :: as, b :: bs => if a < b then true else if b < a then false else listLtCh as bs

/-- The comparator of line 87: `a.term:lower() < b.term:lower()`. -/
def termLt (a b : TermEntry) : Bool := listLtCh (luaLower a.term) (luaLower b.term)

/-- `a[i]` (0-based).  All accesses of the reachable sort states are in
bounds; out-of-range reads return a dummy entry. -/
def getE (a : List TermEntry) (i : Nat) : TermEntry := a.getD i ⟨[], []⟩

/-- `set2`: exchange `a[i]` and `a[j]` (identity out of bounds, which the
reachable sort states never are). -/
def swapE (a : List TermEntry) (i j : Nat) : List TermEntry :=
  if i < a.length ∧ j < a.length then (a.set i (getE a j)).set j (getE a i) else a

/-- The first inner loop of `partition`: `while a[++i] < P`, starting the
scan at `k` and giving up after `fuel` steps (the scan provably stops at
the pivot copy `a[up-1]`, where Lua would raise its "invalid order
function" error instead of stopping). -/
def scanUpF (a : List TermEntry) (P : TermEntry) : Nat → Nat → Nat
  | 0, k => k
  | fuel + 1, k => if termLt (getE a k) P then scanUpF a P fuel (k + 1) else k

/-- The second inner loop of `partition`: `while P < a[--j]`. -/
def scanDownF (a : List TermEntry) (P : TermEntry) : Nat → Nat → Nat
  | 0, k => k
  | fuel + 1, k => if termLt P (getE a k) then scanDownF a P fuel (k - 1) else k

/-- The outer `for (;;)` loop of `partition` (`ltablib.c`): returns the
final array and the pivot position. -/
def partLoopF (P : TermEntry) :
    Nat → List TermEntry → Nat → Nat → Nat → Nat → List TermEntry × Nat
  | 0, a, _, _, i, _ => (a, i)
  | fuel + 1, a, lo, up, i, j =>
    let i' := scanUpF a P (up - 1 - i) (i + 1)
    let j' := scanDownF a P j (j - 1)
    if j' < i' then (swapE a (up - 1) i', i')
    else partLoopF P fuel (swapE a i' j') lo up i' j'

/-- `auxsort` (0-based): sort-3 of `a[lo], a[(lo+up)/2], a[up]`, move the
median next to the top, partition, recurse on the smaller interval and
loop (here: recurse) on the larger one. -/
def auxsortF : Nat → List TermEntry → Nat → Nat → List TermEntry
  | 0, a, _, _ => a
  | fuel + 1, a, lo, up =>
    if lo < up then
      let a1 := if termLt (getE a up) (getE a lo) then swapE a lo up else a
      if up - lo = 1 then a1 else
      let p := (lo + up) / 2
      let a2 :=
        if termLt (getE a1 p) (getE a1 lo) then swapE a1 p lo
        else if termLt (getE a1 up) (getE a1 p) then swapE a1 p up else a1
      if up - lo = 2 then a2 else
      let P := getE a2 p
      let a3 := swapE a2 p (up - 1)
      let pr := partLoopF P (up - lo + 1) a3 lo up lo (up - 1)
      let a4 := pr.1
      let i := pr.2
      if i - lo < up - i then
        auxsortF fuel (auxsortF fuel a4 lo (i - 1)) (i + 1) up
      else
        auxsortF fuel (auxsortF fuel a4 (i + 1) up) lo (i - 1)
    else a

/-- `table.sort(terms, comparator)`: `auxsort(L, 1, n)` in `ltablib.c`. -/
def luaTableSort (l : List TermEntry) : List TermEntry :=
  auxsortF (l.length + 1) l 0 (l.length - 1)

/-- `parse_terms` (lines 69-90): extract, trim, filter, sort. -/
def parse_terms (content : List Char) : List TermEntry :=
  luaTableSort (collectTerms content)

/-! ## The page renderer (`generate_html`, lines 92-155)

The Lua function accumulates HTML fragments in a table and concatenates
them at the end; the embedding keeps the fragment list.  `all_terms` is a
Lua table keyed by uppercase letter, modelled as `Char → Option (List
TermEntry)` (`none` = key absent). -/

/-- The `LETTERS` array (lines 3-30). -/
def LETTERS : List Char :=
  ['a', 'b', 'c', 'd', 'e', 'f', 'g', 'h', 'i', 'j', 'k', 'l', 'm',
   'n', 'o', 'p', 'q', 'r', 's', 't', 'u', 'v', 'w', 'x', 'y', 'z']

/-- `letter:upper()`: ASCII uppercasing. -/
def upperChar (c : Char) : Char :=
  if 'a' ≤ c ∧ c ≤ 'z' then Char.ofNat (c.toNat - 32) else c

/-- The `all_terms` table: uppercase letter to letter bucket. -/
def Glossary : Type := Char → Option (List TermEntry)

/-- The bucket of a (lowercase) letter, `[]` when the key is absent. -/
def bucketOf (g : Glossary) (c : Char) : List TermEntry :=
  (g (upperChar c)).getD []

/-- The condition of line 116: `all_terms[upper] and #all_terms[upper] > 0`. -/
def navCond (g : Glossary) (c : Char) : Bool :=
  match g (upperChar c) with
  | some t => t.length > 0
  | none => false

/-- The fixed head block (the first `[[...]]` literal, lines 94-109; a long
bracket string drops a leading newline). -/
def headerFrag : List Char :=
  ("  <!DOCTYPE html>\n<html>\n<head>\n    <meta charset=\"UTF-8\">\n    <title>Glossario</title>\n\t<link rel=\"icon\" href=\"../images/logo.png\" type=\"image/x-icon\">\n   <link rel=\"stylesheet\" href=\"../styles.css\">\n   <link rel=\"stylesheet\" href=\"glossario.css\">\n   <script src=\"../script.js\" defer></script>\n    </head>\n<body>\n  <header>\n    <nav aria-label=\"Navigazione principale\">\n    <ul id=\"nav-navigation\">\n  ").data

/-- One navigation entry (line 117). -/
def navLiFrag (c : Char) : List Char :=
  ("            <li><a href=\"#").data ++ [c] ++ ("\">").data ++
    [upperChar c] ++ ("</a></li>\n").data

/-- The block between navigation and sections (lines 121-130). -/
def midFrag : List Char :=
  ("        </nav>\n\t\t\t\t</header>\n\t\t\t\n\t\t\t\t<main>\n\t\t\t\t<a href=\"../../index.html\" id=\"home\">Home</a>\n\n").data

/-- `<section id="x">` opener (line 135). -/
def sectionOpenFrag (c : Char) : List Char :=
  ("    <section id=\"").data ++ [c] ++ ("\">\n").data

/-- The section heading (line 136). -/
def h2Frag (c : Char) : List Char :=
  ("\t<h2>").data ++ [upperChar c] ++ ("</h2>\n").data

/-- `<dl>` opener (line 138). -/
def dlOpenFrag : List Char := ("\t  <dl>\n").data

/-- One `<dt>` with the escaped term (line 141). -/
def dtFrag (e : TermEntry) : List Char :=
  ("\t      <dt>").data ++ convert_latex_to_html e.term ++ ("</dt>\n").data

/-- One `<dd>` with the escaped definition (line 142). -/
def ddFrag (e : TermEntry) : List Char :=
  ("\t      <dd>").data ++ convert_latex_to_html e.definition ++ ("</dd>\n\n").data

/-- `</dl>` closer (line 144). -/
def dlCloseFrag : List Char := ("        </dl>\n").data

/-- `</section>` closer (line 146). -/
def sectionCloseFrag : List Char := ("    </section>\n\n").data

/-- The closing block (lines 148-153). -/
def footerFrag : List Char := ("</body>\n</html>").data

/-- The navigation loop (lines 113-119): one `<li>` per letter passing the
`navCond` test, in `LETTERS` order. -/
def navFrags (g : Glossary) : List (List Char) :=
  LETTERS.filterMap (fun c => if navCond g c then some (navLiFrag c) else none)

/-- The fragments one iteration of the section loop (lines 133-147) inserts
for letter `c`. -/
def sectionFrags (g : Glossary) (c : Char) : List (List Char) :=
  [sectionOpenFrag c, h2Frag c] ++
    (match g (upperChar c) with
     | some terms =>
       [dlOpenFrag] ++ terms.foldr (fun e acc => dtFrag e :: ddFrag e :: acc) [] ++
         [dlCloseFrag]
     | none => []) ++
    [sectionCloseFrag]

/-- `generate_html` as the fragment table it accumulates (lines 92-153). -/
def generate_html (g : Glossary) : List (List Char) :=
  [headerFrag] ++ navFrags g ++ [midFrag] ++
    (LETTERS.foldr (fun c acc => sectionFrags g c ++ acc) []) ++ [footerFrag]

/-- `table.concat(html)` (line 154): the final page as one string. -/
def glossarioHtml (g : Glossary) : List Char := (generate_html g).foldr (· ++ ·) []

/-! ## The driver (`main`, lines 157-185)

The 26 input files become `inputs : Char → Option (List Char)` (`none` =
`io.open` returned `nil`, line 34).  The output file is a single modelled
path: `prev : Option (List Char)` is its content before the run.  Opening
it for writing succeeds iff `writable` is true; on failure `write_file`
raises a Lua `error` (line 45) before any byte is written, leaving the
previous content in place; on success the whole content is written. -/

structure RunOutcome where
  /-- Console lines, in print order. -/
  printed : List (List Char)
  /-- Content of `OUTPUT_FILE` after the run (`none` = absent). -/
  output : Option (List Char)
  /-- Did the run abort with a Lua `error`? -/
  failed : Bool
deriving DecidableEq, Repr

/-- The `all_terms` table built by the loop of lines 161-173: a key is set
only for a letter whose file exists and yields at least one term. -/
def mainGlossary (inputs : Char → Option (List Char)) : Glossary :=
  fun u =>
    match LETTERS.find? (fun c => upperChar c = u) with
    | some c =>
      match inputs c with
      | some content =>
        let t := parse_terms content
        if t.length > 0 then some t else none
      | none => none
    | none => none

/-- `tot_terms` after the loop of lines 161-173. -/
def totTerms (inputs : Char → Option (List Char)) : Nat :=
  (LETTERS.map (fun c =>
    match inputs c with
    | some content => (parse_terms content).length
    | none => 0)).sum

/-- `main` (lines 157-183). -/
def mainRun (inputs : Char → Option (List Char)) (writable : Bool)
    (prev : Option (List Char)) : RunOutcome :=
  if totTerms inputs = 0 then
    ⟨[("Nessun termine trovato").data], prev, false⟩
  else if writable then
    ⟨[("Parsing terminato").data], some (glossarioHtml (mainGlossary inputs)), false⟩
  else
    ⟨[("Parsing terminato").data], prev, true⟩

/-! ## Spec-side definitions

These follow the wording of the specification (sections 3, 4.3), to be
compared with the translated generator. -/

/-- The letters "present in the Glossary": at least one term. -/
def lettersWithTerms (g : Glossary) : List Char :=
  LETTERS.filter (fun c => bucketOf g c ≠ [])

/-- Spec 4.3: "a navigation list containing one entry per letter that has
≥1 term, each linking to an in-page anchor matching the lowercase
letter". -/
def specNavFrags (g : Glossary) : List (List Char) :=
  (lettersWithTerms g).map navLiFrag

/-- Spec 4.3: "one `<section>` per letter in A-Z order (even letters with
zero terms get an empty section with just a heading), each non-empty
section containing a definition list alternating escaped term / escaped
definition pairs". -/
def specSectionFrags (g : Glossary) (c : Char) : List (List Char) :=
  if bucketOf g c = [] then [sectionOpenFrag c, h2Frag c, sectionCloseFrag]
  else
    [sectionOpenFrag c, h2Frag c, dlOpenFrag] ++
      (bucketOf g c).foldr (fun e acc => dtFrag e :: ddFrag e :: acc) [] ++
      [dlCloseFrag, sectionCloseFrag]

/-- The page as the spec 4.3 describes it. -/
def specPage (g : Glossary) : List (List Char) :=
  [headerFrag] ++ specNavFrags g ++ [midFrag] ++
    (LETTERS.map (specSectionFrags g)).flatten ++ [footerFrag]

/-- Spec 3 (data model): a letter bucket is "present only if at least one
term was found for that letter", so a key never maps to an empty list. -/
def wellFormedGlossary (g : Glossary) : Prop :=
  ∀ c ∈ LETTERS, g (upperChar c) ≠ some []

/-- Adjacent-pairs sortedness for the comparator of line 87: no later
entry is strictly below its predecessor. -/
def chainSorted : List TermEntry → Bool
  | a :: b :: t => !termLt b a && chainSorted (b :: t)
  | _ => true

/-- Spec 3 (data model): each bucket is "alphabetically sorted by term
(case-insensitive)". -/
def sortedBuckets (g : Glossary) : Prop :=
  ∀ c ∈ LETTERS, chainSorted (bucketOf g c) = true

/-- Number of occurrences of the two-character substring `ab`. -/
def count2 (a b : Char) : List Char → Nat
  | x :: y :: rest => (if x = a ∧ y = b then 1 else 0) + count2 a b (y :: rest)
  | _ => 0

/-- Every element of `a'` in the index range `[lo, up]` already occurred
in that range of `a` (used to carry the partition bounds through the
recursive sorts, which only rearrange elements inside their range). -/
def rangeSub (a' a : List TermEntry) (lo up : Nat) : Prop :=
  ∀ m, lo ≤ m → m ≤ up → ∃ k, lo ≤ k ∧ k ≤ up ∧ getE a' m = getE a k

/-! ## Counterexamples and theorems -/

/-- **C1, counterexample.**  The claim says letters with zero terms are
skipped "in both the navigation list and the rendered sections".  With a
Glossary containing only letter A, the generator still renders a
`<section id="b">` fragment although B has zero terms: the sections are
driven by the static A-Z enumeration, not by the Glossary keys. -/
theorem C1_counterexample :
    sectionOpenFrag 'b' ∈
      generate_html (fun u => if u = 'A' then some [⟨['A'], ['x']⟩] else none) ∧
    bucketOf (fun u => if u = 'A' then some [⟨['A'], ['x']⟩] else none) 'b' = [] := by
  decide

/-- **C2, counterexample.**  The claim says the definition is "exactly the
remainder of the same line as the invocation ..., never text from a
following line".  In `\term{A}\ndef` the remainder of the invocation's own
line after the closing brace is empty, yet the extractor yields the pair
`(A, def)`: the `%s*` in the pattern skips the newline (Lua's `%s` class
includes `\n`), so the definition is taken from the following line. -/
theorem C2_counterexample :
    parse_terms ("\\term{A}\ndef").data = [⟨['A'], ['d', 'e', 'f']⟩] ∧
    ("\\term{A}\ndef").data.takeWhile (fun c => c ≠ '\n') = ("\\term{A}").data := by
  decide

/-- **C3, counterexample.**  The claim says every `<` is escaped "except
where it begins the italic opening tag `<i>` introduced by macro
expansion", and that "no other `<` or `>` survives unescaped".  The input
`a<ib` contains no emphasis macro at all, yet its `<` survives unescaped,
because the escaping exception is purely character-based (`<` followed by
`i`). -/
theorem C3_counterexample :
    convert_latex_to_html ("a<ib").data = ("a<ib").data ∧
    hasTextitMacro ("a<ib").data = false ∧
    '<' ∈ convert_latex_to_html ("a<ib").data := by
  decide

/-- **C4, counterexample.**  The claim says the sort is stable.  The four
extracted pairs below all have the same term `a` (so all keys compare
equal case-insensitively) and are collected in source order `d1 d2 d3 d4`,
but `table.sort`'s quicksort emits them as `d1 d3 d2 d4`: the
median-of-three step swaps `a[2]` and `a[3]` unconditionally, so source
order is not preserved for equal keys. -/
theorem C4_counterexample :
    collectTerms ("\\term{a}d1\n\\term{a}d2\n\\term{a}d3\n\\term{a}d4").data =
      [⟨['a'], ['d', '1']⟩, ⟨['a'], ['d', '2']⟩, ⟨['a'], ['d', '3']⟩,
        ⟨['a'], ['d', '4']⟩] ∧
    parse_terms ("\\term{a}d1\n\\term{a}d2\n\\term{a}d3\n\\term{a}d4").data =
      [⟨['a'], ['d', '1']⟩, ⟨['a'], ['d', '3']⟩, ⟨['a'], ['d', '2']⟩,
        ⟨['a'], ['d', '4']⟩] ∧
    parse_terms ("\\term{a}d1\n\\term{a}d2\n\\term{a}d3\n\\term{a}d4").data ≠
      collectTerms ("\\term{a}d1\n\\term{a}d2\n\\term{a}d3\n\\term{a}d4").data := by
  decide

/-- Line 116's test holds exactly for the letters with a non-empty bucket. -/
theorem navCond_iff (g : Glossary) (c : Char) :
    navCond g c = true ↔ bucketOf g c ≠ [] := by
  unfold navCond bucketOf
  cases h : g (upperChar c) with
  | none => simp
  | some t => simp [List.length_pos]

/-- The translated navigation loop agrees with the spec-side navigation
list for every glossary. -/
theorem navFrags_eq_spec (g : Glossary) : navFrags g = specNavFrags g := by
  unfold navFrags specNavFrags lettersWithTerms
  suffices h : ∀ l : List Char,
      l.filterMap (fun c => if navCond g c then some (navLiFrag c) else none) =
        (l.filter (fun c => bucketOf g c ≠ [])).map navLiFrag from h LETTERS
  intro l
  induction l with
  | nil => rfl
  | cons c t ih =>
    by_cases h : bucketOf g c = []
    · have hc : navCond g c = false := by
        rw [← Bool.not_eq_true, navCond_iff]
        simp [h]
      simp [List.filterMap_cons, List.filter_cons, hc, h, ih]
    · have hc : navCond g c = true := (navCond_iff g c).mpr h
      simp [List.filterMap_cons, List.filter_cons, hc, h, ih]

/-- Every letter of the static A-Z enumeration contributes its section
opener to the generated page, whatever the glossary. -/
theorem sectionOpen_mem (g : Glossary) (c : Char) (h : c ∈ LETTERS) :
    sectionOpenFrag c ∈ generate_html g := by
  unfold generate_html
  have key : ∀ l : List Char, c ∈ l →
      sectionOpenFrag c ∈ l.foldr (fun c acc => sectionFrags g c ++ acc) [] := by
    intro l hl
    induction l with
    | nil => cases hl
    | cons a t ih =>
      rcases List.mem_cons.mp hl with rfl | hmem
      · simp [sectionFrags]
      · simp only [List.foldr_cons, List.mem_append]
        exact Or.inr (ih hmem)
  have := key LETTERS h
  simp only [List.mem_append]
  tauto

/-- **C1 (amended).**  The navigation list is derived from, and only from,
the letters present in the Glossary (letters with zero terms are skipped
in the navigation), but the rendered `<section>` elements are NOT: one
section is emitted for every letter of the static A-Z enumeration,
including letters with zero terms. -/
theorem C1_theorem (g : Glossary) :
    navFrags g = specNavFrags g ∧
    ∀ c ∈ LETTERS, sectionOpenFrag c ∈ generate_html g :=
  ⟨navFrags_eq_spec g, fun c hc => sectionOpen_mem g c hc⟩

/-- **C1, witness.** -/
theorem C1_witness :
    navFrags (fun u => if u = 'A' then some [⟨['A'], ['x']⟩] else none) =
      specNavFrags (fun u => if u = 'A' then some [⟨['A'], ['x']⟩] else none) ∧
    sectionOpenFrag 'z' ∈
      generate_html (fun u => if u = 'A' then some [⟨['A'], ['x']⟩] else none) :=
  ⟨(C1_theorem _).1, (C1_theorem _).2 'z' (by decide)⟩

/-! ### Membership is preserved by the sort (it only swaps elements) -/

theorem mem_swapE {x : TermEntry} {a : List TermEntry} {i j : Nat}
    (h : x ∈ swapE a i j) : x ∈ a := by
  unfold swapE at h
  split at h
  · rename_i hb
    rcases List.mem_or_eq_of_mem_set h with h' | rfl
    · rcases List.mem_or_eq_of_mem_set h' with h'' | rfl
      · exact h''
      · unfold getE
        rw [List.getD_eq_getElem _ _ hb.2]
        exact List.getElem_mem hb.2
    · unfold getE
      rw [List.getD_eq_getElem _ _ hb.1]
      exact List.getElem_mem hb.1
  · exact h

theorem mem_partLoopF {x : TermEntry} {P : TermEntry} :
    ∀ fuel a lo up i j, x ∈ (partLoopF P fuel a lo up i j).1 → x ∈ a := by
  intro fuel
  induction fuel with
  | zero => intro a lo up i j h; exact h
  | succ n ih =>
    intro a lo up i j h
    rw [partLoopF] at h
    split at h
    · exact mem_swapE h
    · exact mem_swapE (ih _ _ _ _ _ h)

theorem mem_auxsortF {x : TermEntry} :
    ∀ fuel a lo up, x ∈ auxsortF fuel a lo up → x ∈ a := by
  intro fuel
  induction fuel with
  | zero => intro a lo up h; exact h
  | succ n ih =>
    intro a lo up h
    rw [auxsortF] at h
    split at h
    · repeat'
        first
        | split at h
        | dsimp only at h
        | replace h := mem_partLoopF _ _ _ _ _ _ h
        | replace h := mem_swapE h
        | replace h := ih _ _ _ h
        | exact h
    · exact h

theorem mem_luaTableSort {x : TermEntry} {l : List TermEntry}
    (h : x ∈ luaTableSort l) : x ∈ l :=
  mem_auxsortF _ _ _ _ h

/-! ### The captured definition never contains a newline -/

theorem dropWhile_head_false {p : Char → Bool} :
    ∀ {l : List Char} {c : Char} {t : List Char},
      l.dropWhile p = c :: t → p c = false := by
  intro l
  induction l with
  | nil => intro c t h; cases h
  | cons a rest ih =>
    intro c t h
    rw [List.dropWhile_cons] at h
    split at h
    · exact ih h
    · cases h
      rename_i hp
      exact Bool.of_not_eq_true hp

theorem matchSpaceDef_no_newline {r d rem : List Char}
    (h : matchSpaceDef r = some (d, rem)) : '\n' ∉ d := by
  unfold matchSpaceDef at h
  split at h
  · rename_i c0 after heq
    cases h
    intro hmem
    simpa using List.mem_takeWhile_imp hmem
  · split at h
    · cases h
    · rename_i heq2
      cases h
      intro hmem
      rcases List.mem_singleton.mp hmem with rfl
      have := dropWhile_head_false heq2
      simp at this

theorem termMatchAt_def_no_newline {l : List Char}
    {pair : List Char × List Char} {rem : List Char}
    (h : termMatchAt l = some (pair, rem)) : '\n' ∉ pair.2 := by
  unfold termMatchAt at h
  split at h
  · split at h
    · split at h
      · rename_i hms
        cases h
        exact matchSpaceDef_no_newline hms
      · cases h
    · cases h
  · cases h

theorem findTermMatch_def_no_newline :
    ∀ {l : List Char} {pair : List Char × List Char} {rem : List Char},
      findTermMatch l = some (pair, rem) → '\n' ∉ pair.2 := by
  intro l
  induction l with
  | nil => intro pair rem h; cases h
  | cons c rest ih =>
    intro pair rem h
    rw [findTermMatch] at h
    split at h
    · rename_i r hat
      cases h
      exact termMatchAt_def_no_newline hat
    · exact ih h

theorem gmatchTerms_def_no_newline :
    ∀ {fuel : Nat} {l : List Char} {p : List Char × List Char},
      p ∈ gmatchTerms fuel l → '\n' ∉ p.2 := by
  intro fuel
  induction fuel with
  | zero => intro l p h; cases h
  | succ n ih =>
    intro l p h
    rw [gmatchTerms] at h
    split at h
    · cases h
    · rename_i pair rem hfind
      rcases List.mem_cons.mp h with rfl | hmem
      · exact findTermMatch_def_no_newline hfind
      · exact ih hmem

theorem mem_trimLua {x : Char} {l : List Char} (h : x ∈ trimLua l) : x ∈ l := by
  unfold trimLua at h
  rw [List.mem_reverse] at h
  replace h := (List.dropWhile_sublist _).mem h
  rw [List.mem_reverse] at h
  exact (List.dropWhile_sublist _).mem h

/-- **C2 (amended).**  Every definition the extractor yields is a
single-line run: it never contains a newline.  However, because the `%s*`
whitespace skip after the closing brace also crosses newlines, that line
may be a line following the invocation (as the counterexample shows)
rather than the invocation's own line. -/
theorem C2_theorem (content : List Char) :
    ∀ e ∈ parse_terms content, '\n' ∉ e.definition := by
  intro e he
  have hc : e ∈ collectTerms content := mem_luaTableSort he
  unfold collectTerms at hc
  rcases List.mem_filterMap.mp hc with ⟨p, hp, hfe⟩
  have hnl : '\n' ∉ p.2 := gmatchTerms_def_no_newline hp
  dsimp only at hfe
  split at hfe
  · cases hfe
    intro hmem
    exact hnl (mem_trimLua hmem)
  · cases hfe

/-- **C2, witness.** -/
theorem C2_witness : '\n' ∉ (⟨['A'], ['d', 'e', 'f']⟩ : TermEntry).definition :=
  C2_theorem ("\\term{A}\ndef").data ⟨['A'], ['d', 'e', 'f']⟩ (by decide)

/-! ### No empty term or definition survives (C9) -/

theorem mem_dropWhile_of_not {p : Char → Bool} {c : Char} :
    ∀ {l : List Char}, c ∈ l → p c = false → c ∈ l.dropWhile p := by
  intro l
  induction l with
  | nil => intro h; cases h
  | cons a t ih =>
    intro hmem hpc
    rw [List.dropWhile_cons]
    rcases List.mem_cons.mp hmem with rfl | hm
    · simp [hpc]
    · split
      · exact ih hm hpc
      · exact List.mem_cons_of_mem _ hm

theorem trimLua_eq_nil_iff {l : List Char} :
    trimLua l = [] ↔ ∀ c ∈ l, isLuaSpace c = true := by
  unfold trimLua
  rw [List.reverse_eq_nil_iff, List.dropWhile_eq_nil_iff]
  constructor
  · intro h c hc
    by_cases hp : isLuaSpace c = true
    · exact hp
    · exact absurd (h c (List.mem_reverse.mpr
        (mem_dropWhile_of_not hc (Bool.of_not_eq_true hp)))) (by simp [hp])
  · intro h c hc
    exact h c ((List.dropWhile_sublist _).mem (List.mem_reverse.mp hc))

theorem mem_trimLua_of_not {c : Char} {l : List Char} (hc : c ∈ l)
    (hp : isLuaSpace c = false) : c ∈ trimLua l := by
  unfold trimLua
  rw [List.mem_reverse]
  exact mem_dropWhile_of_not (List.mem_reverse.mpr (mem_dropWhile_of_not hc hp)) hp

/-- Trimming an already trimmed non-empty text cannot make it empty. -/
theorem trimLua_trimLua_ne_nil {l : List Char} (h : trimLua l ≠ []) :
    trimLua (trimLua l) ≠ [] := by
  intro habs
  apply h
  rw [trimLua_eq_nil_iff]
  intro c hc
  by_cases hp : isLuaSpace c = true
  · exact hp
  · exact absurd (trimLua_eq_nil_iff.mp habs c
      (mem_trimLua_of_not hc (Bool.of_not_eq_true hp))) (by simp [hp])

/-- **C9.**  For every input file content, no entry whose term or whose
definition is empty after trimming appears in the extractor's output: both
sides of every emitted entry are non-empty even after (re-)trimming. -/
theorem C9_theorem (content : List Char) :
    ∀ e ∈ parse_terms content,
      trimLua e.term ≠ [] ∧ trimLua e.definition ≠ [] := by
  intro e he
  have hc : e ∈ collectTerms content := mem_luaTableSort he
  unfold collectTerms at hc
  rcases List.mem_filterMap.mp hc with ⟨p, _, hfe⟩
  dsimp only at hfe
  split at hfe
  · rename_i hcond
    cases hfe
    exact ⟨trimLua_trimLua_ne_nil hcond.1, trimLua_trimLua_ne_nil hcond.2⟩
  · cases hfe

/-- **C9, witness.** -/
theorem C9_witness :
    trimLua (⟨['B'], ['o', 'k']⟩ : TermEntry).term ≠ [] ∧
    trimLua (⟨['B'], ['o', 'k']⟩ : TermEntry).definition ≠ [] :=
  C9_theorem ("\\term{ B } ok").data ⟨['B'], ['o', 'k']⟩ (by decide)

/-- **C7.**  If the total number of terms extracted across all 26 letters
is zero, the run prints "Nessun termine trovato" ("no terms found"), does
not fail, and performs no write: the output file keeps exactly its
previous state. -/
theorem C7_theorem (inputs : Char → Option (List Char)) (writable : Bool)
    (prev : Option (List Char)) (h : totTerms inputs = 0) :
    mainRun inputs writable prev =
      ⟨[("Nessun termine trovato").data], prev, false⟩ := by
  unfold mainRun
  simp [h]

/-- **C7, witness.** -/
theorem C7_witness :
    mainRun (fun _ => none) true (some ['o', 'l', 'd']) =
      ⟨[("Nessun termine trovato").data], some ['o', 'l', 'd'], false⟩ :=
  C7_theorem (fun _ => none) true (some ['o', 'l', 'd']) (by decide)

/-- **C6.**  If the output file is unwritable, `io.open(path, "w")` returns
`nil` and `write_file` raises a Lua `error` before any byte is committed
(line 45), so the previous output-file state is fully preserved; the run
fails whenever it attempts the write at all (i.e. when at least one term
was found). -/
theorem C6_theorem (inputs : Char → Option (List Char))
    (prev : Option (List Char)) :
    (mainRun inputs false prev).output = prev ∧
    (totTerms inputs ≠ 0 → (mainRun inputs false prev).failed = true) := by
  unfold mainRun
  by_cases h : totTerms inputs = 0 <;> simp [h]

/-- **C6, witness.** -/
theorem C6_witness :
    (mainRun (fun c => if c = 'a' then some ("\\term{A}x").data else none)
        false (some ['o', 'l', 'd'])).output = some ['o', 'l', 'd'] ∧
    (mainRun (fun c => if c = 'a' then some ("\\term{A}x").data else none)
        false (some ['o', 'l', 'd'])).failed = true :=
  ⟨(C6_theorem _ _).1, (C6_theorem _ _).2 (by decide)⟩

/-- For a letter whose key is not `some []`, the fragments emitted by the
section loop coincide with the spec-side section description. -/
theorem sectionFrags_eq_spec {g : Glossary} {c : Char}
    (h : g (upperChar c) ≠ some []) :
    sectionFrags g c = specSectionFrags g c := by
  unfold sectionFrags specSectionFrags bucketOf
  cases hg : g (upperChar c) with
  | none => simp [hg]
  | some terms =>
    have hne : terms ≠ [] := by
      intro habs
      exact h (by rw [hg, habs])
    simp [hg, hne]

/-- **C5.**  For every well-formed Glossary (buckets present only when
non-empty, each bucket sorted case-insensitively, as the data model
guarantees), the generated page is exactly: the fixed head; one navigation
entry per letter with at least one term, linking to the in-page anchor
`#<lowercase letter>`; the home block; one `<section id="<lowercase
letter>">` per letter in A-Z order, where a letter with zero terms gets
just a heading and a letter with terms gets a definition list alternating
escaped term and escaped definition in the bucket's (sorted) order; and
the fixed footer. -/
theorem C5_theorem (g : Glossary) (hwf : wellFormedGlossary g)
    (hsort : sortedBuckets g) :
    generate_html g = specPage g ∧
    ∀ c ∈ LETTERS, chainSorted (bucketOf g c) = true := by
  refine ⟨?_, hsort⟩
  unfold generate_html specPage
  rw [navFrags_eq_spec]
  have key : ∀ l : List Char, (∀ c ∈ l, g (upperChar c) ≠ some []) →
      l.foldr (fun c acc => sectionFrags g c ++ acc) [] =
        (l.map (specSectionFrags g)).flatten := by
    intro l hl
    induction l with
    | nil => rfl
    | cons a t ih =>
      simp only [List.foldr_cons, List.map_cons, List.flatten_cons]
      rw [sectionFrags_eq_spec (hl a (List.mem_cons_self a t)),
        ih (fun c hc => hl c (List.mem_cons_of_mem a hc))]
  rw [key LETTERS hwf]

/-- **C5, witness** (the worked example of spec section 8). -/
theorem C5_witness :
    generate_html (fun u =>
        if u = 'A' then
          some [⟨("alpha").data, ("first").data⟩, ⟨("Zeta").data, ("last").data⟩]
        else none) =
      specPage (fun u =>
        if u = 'A' then
          some [⟨("alpha").data, ("first").data⟩, ⟨("Zeta").data, ("last").data⟩]
        else none) ∧
    ∀ c ∈ LETTERS,
      chainSorted
        (bucketOf (fun u =>
          if u = 'A' then
            some [⟨("alpha").data, ("first").data⟩, ⟨("Zeta").data, ("last").data⟩]
          else none) c) = true :=
  C5_theorem _ (by unfold wellFormedGlossary; decide) (by unfold sortedBuckets; decide)

/-! ### The escaper is the identity on clean text (C8) -/

theorem expandTextit_id :
    ∀ (fuel : Nat) {t : List Char}, hasTextitMacro t = false →
      expandTextit fuel t = t := by
  intro fuel
  induction fuel with
  | zero => intro t _; rfl
  | succ n ih =>
    intro t h
    rw [expandTextit.eq_def]
    dsimp only
    split
    · rfl
    · rename_i rest
      split
      · rename_i c0 ctail rest3 htake hdrop
        exfalso
        rw [hasTextitMacro] at h
        rcases Bool.or_eq_false_iff.mp h with ⟨hm, _⟩
        simp only [textitMatchAt, htake, hdrop] at hm
        cases hm
      · have htail : hasTextitMacro
            ('t' :: 'e' :: 'x' :: 't' :: 'i' :: 't' :: '{' :: rest) = false := by
          rw [hasTextitMacro] at h
          exact (Bool.or_eq_false_iff.mp h).2
        rw [ih htail]
    · rename_i c rest hne
      have htail : hasTextitMacro rest = false := by
        rw [hasTextitMacro] at h
        exact (Bool.or_eq_false_iff.mp h).2
      rw [ih htail]

theorem gsubAmp_id : ∀ {t : List Char}, '&' ∉ t → gsubAmp t = t := by
  intro t
  induction t with
  | nil => intro _; rfl
  | cons c rest ih =>
    intro h
    rw [gsubAmp.eq_def]
    split
    · rename_i heq; cases heq
    · rename_i rest' heq
      injection heq with h1 h2
      exact absurd (h1 ▸ List.mem_cons_self c rest) h
    · rename_i c' rest' heq
      injection heq with h1 h2
      subst h1
      subst h2
      rw [ih (fun hm => h (List.mem_cons_of_mem _ hm))]

theorem gsubQuot_id : ∀ {t : List Char}, '"' ∉ t → gsubQuot t = t := by
  intro t
  induction t with
  | nil => intro _; rfl
  | cons c rest ih =>
    intro h
    rw [gsubQuot.eq_def]
    split
    · rename_i heq; cases heq
    · rename_i rest' heq
      injection heq with h1 h2
      exact absurd (h1 ▸ List.mem_cons_self c rest) h
    · rename_i c' rest' heq
      injection heq with h1 h2
      subst h1
      subst h2
      rw [ih (fun hm => h (List.mem_cons_of_mem _ hm))]

theorem gsubApos_id : ∀ {t : List Char}, '\'' ∉ t → gsubApos t = t := by
  intro t
  induction t with
  | nil => intro _; rfl
  | cons c rest ih =>
    intro h
    rw [gsubApos.eq_def]
    split
    · rename_i heq; cases heq
    · rename_i rest' heq
      injection heq with h1 h2
      exact absurd (h1 ▸ List.mem_cons_self c rest) h
    · rename_i c' rest' heq
      injection heq with h1 h2
      subst h1
      subst h2
      rw [ih (fun hm => h (List.mem_cons_of_mem _ hm))]

theorem gsubLt_id : ∀ {t : List Char}, '<' ∉ t → gsubLt t = t := by
  intro t
  induction t with
  | nil => intro _; rfl
  | cons c rest ih =>
    intro h
    rw [gsubLt.eq_def]
    split
    · rename_i heq; cases heq
    · rename_i c' rest' heq
      injection heq with h1 h2
      exact absurd (h1 ▸ List.mem_cons_self c rest) h
    · rename_i c' rest' heq
      injection heq with h1 h2
      subst h1
      subst h2
      rw [ih (fun hm => h (List.mem_cons_of_mem _ hm))]

theorem gsubLtEnd_id : ∀ {t : List Char}, '<' ∉ t → gsubLtEnd t = t := by
  intro t
  induction t with
  | nil => intro _; rfl
  | cons c rest ih =>
    intro h
    rw [gsubLtEnd.eq_def]
    split
    · rename_i heq; cases heq
    · rename_i heq
      injection heq with h1 h2
      exact absurd (h1 ▸ List.mem_cons_self c rest) h
    · rename_i c' rest' heq
      injection heq with h1 h2
      subst h1
      subst h2
      rw [ih (fun hm => h (List.mem_cons_of_mem _ hm))]

theorem gsubGt_id : ∀ {t : List Char}, '>' ∉ t → gsubGt t = t := by
  intro t
  induction t with
  | nil => intro _; rfl
  | cons c rest ih =>
    intro h
    rw [gsubGt.eq_def]
    split
    · rename_i heq; cases heq
    · rename_i c' rest' heq
      injection heq with h1 h2
      exact absurd (List.mem_cons_of_mem c (h2 ▸ List.mem_cons_self '>' rest')) h
    · rename_i c' rest' heq
      injection heq with h1 h2
      subst h1
      subst h2
      rw [ih (fun hm => h (List.mem_cons_of_mem _ hm))]

theorem gsubGtStart_id {t : List Char} (h : '>' ∉ t) : gsubGtStart t = t := by
  rw [gsubGtStart.eq_def]
  split
  · exact absurd (List.mem_cons_self _ _) h
  · rfl

/-- The escaping passes leave a text without reserved characters alone. -/
theorem escapeChain_id {t : List Char} (h : ∀ c ∈ t, c ∉ reservedChars) :
    escapeChain t = t := by
  have h5 : ∀ c, c ∈ t → c ∈ reservedChars → False := fun c hc hr => h c hc hr
  have hamp : '&' ∉ t := fun hm => h5 '&' hm (by decide)
  have hlt : '<' ∉ t := fun hm => h5 '<' hm (by decide)
  have hgt : '>' ∉ t := fun hm => h5 '>' hm (by decide)
  have hq : '"' ∉ t := fun hm => h5 '"' hm (by decide)
  have ha : '\'' ∉ t := fun hm => h5 '\'' hm (by decide)
  unfold escapeChain
  rw [gsubAmp_id hamp, gsubLt_id hlt, gsubLtEnd_id hlt, gsubGt_id hgt,
    gsubGtStart_id hgt, gsubQuot_id hq, gsubApos_id ha]

/-- **C8.**  On a text with no emphasis macro and none of the
HTML-reserved characters, the escaper is the identity, hence applying it
twice gives the same result as applying it once (idempotence on clean
text). -/
theorem C8_theorem (t : List Char) (hmac : hasTextitMacro t = false)
    (hres : ∀ c ∈ t, c ∉ reservedChars) :
    convert_latex_to_html t = t ∧
    convert_latex_to_html (convert_latex_to_html t) = convert_latex_to_html t := by
  have hid : convert_latex_to_html t = t := by
    unfold convert_latex_to_html
    rw [expandTextit_id _ hmac, escapeChain_id hres]
  exact ⟨hid, by rw [hid]; exact hid⟩

/-- **C8, witness.** -/
theorem C8_witness :
    convert_latex_to_html ("plain text 123.").data = ("plain text 123.").data ∧
    convert_latex_to_html (convert_latex_to_html ("plain text 123.").data) =
      convert_latex_to_html ("plain text 123.").data :=
  C8_theorem _ (by decide) (by decide)

/-! ### Macro-introduced italic tags survive the escaping (C3, amended) -/

theorem gsubLt_cons_ne {c : Char} (X : List Char) (h : c ≠ '<') :
    gsubLt (c :: X) = c :: gsubLt X := by
  rw [gsubLt.eq_def]
  split
  · rename_i heq; cases heq
  · rename_i c' rest' heq
    injection heq with h1 h2
    exact absurd h1 h
  · rename_i c' rest' heq
    injection heq with h1 h2
    subst h1
    subst h2
    rfl

theorem gsubLt_lt_tag {c : Char} (X : List Char) (h : c = 'i' ∨ c = '/') :
    gsubLt ('<' :: c :: X) = '<' :: gsubLt (c :: X) := by
  rw [gsubLt.eq_def]
  simp [h]

theorem gsubLt_append {u v : List Char} (hu : '<' ∉ u) :
    gsubLt (u ++ v) = u ++ gsubLt v := by
  induction u with
  | nil => rfl
  | cons c rest ih =>
    have hc : c ≠ '<' := fun habs => hu (habs ▸ List.mem_cons_self c rest)
    rw [List.cons_append, gsubLt_cons_ne _ hc,
      ih (fun hm => hu (List.mem_cons_of_mem _ hm))]
    simp

theorem gsubGt_cons_of_head {c : Char} {X : List Char}
    (h : X.head? ≠ some '>') : gsubGt (c :: X) = c :: gsubGt X := by
  match X with
  | [] => rw [gsubGt.eq_def]
  | d :: X' =>
    have hd : d ≠ '>' := fun habs => h (by rw [habs]; rfl)
    rw [gsubGt.eq_def]
    split
    · rename_i heq; cases heq
    · rename_i c' rest' heq
      injection heq with h1 h2
      injection h2 with h2a h2b
      exact absurd h2a hd
    · rename_i c' rest' heq
      injection heq with h1 h2
      subst h1
      subst h2
      rfl

theorem gsubGt_i_gt (X : List Char) :
    gsubGt ('i' :: '>' :: X) = 'i' :: gsubGt ('>' :: X) := by
  rw [gsubGt.eq_def]
  simp

theorem gsubGt_append {u v : List Char} (hu : '>' ∉ u)
    (hb : v.head? = some '>' → u ≠ [] → u.getLast? = some 'i') :
    gsubGt (u ++ v) = u ++ gsubGt v := by
  induction u with
  | nil => rfl
  | cons c rest ih =>
    have hc : c ≠ '>' := fun habs => hu (habs ▸ List.mem_cons_self c rest)
    have hurest : '>' ∉ rest := fun hm => hu (List.mem_cons_of_mem _ hm)
    cases rest with
    | nil =>
      simp only [List.cons_append, List.nil_append]
      cases v with
      | nil => rfl
      | cons d v2 =>
        by_cases hd : d = '>'
        · subst hd
          have hcis : c = 'i' := by simpa using hb rfl (by simp)
          subst hcis
          exact gsubGt_i_gt v2
        · rw [gsubGt_cons_of_head (by simp [hd])]
    | cons c2 rest2 =>
      have hc2 : c2 ≠ '>' := fun habs =>
        hurest (habs ▸ List.mem_cons_self c2 rest2)
      have hbr : v.head? = some '>' → (c2 :: rest2) ≠ [] →
          (c2 :: rest2).getLast? = some 'i' := by
        intro hv _
        have := hb hv (by simp)
        rwa [List.getLast?_cons_cons] at this
      rw [List.cons_append, gsubGt_cons_of_head (by simp [hc2]), ih hurest hbr]
      simp

theorem takeWhile_append_stop {p : Char → Bool} :
    ∀ {s : List Char} {x : Char} {q : List Char},
      (∀ c ∈ s, p c = true) → p x = false →
      (s ++ x :: q).takeWhile p = s ∧ (s ++ x :: q).dropWhile p = x :: q := by
  intro s
  induction s with
  | nil =>
    intro x q _ hx
    constructor
    · rw [List.nil_append, List.takeWhile_cons]
      simp [hx]
    · rw [List.nil_append, List.dropWhile_cons]
      simp [hx]
  | cons c rest ih =>
    intro x q hs hx
    have hc : p c = true := hs c (List.mem_cons_self c rest)
    have hrest : ∀ d ∈ rest, p d = true := fun d hd =>
      hs d (List.mem_cons_of_mem _ hd)
    have hih := @ih x q hrest hx
    constructor
    · simp [List.cons_append, List.takeWhile_cons, hc, hih.1]
    · simp [List.cons_append, List.dropWhile_cons, hc, hih.2]

/-- Unfolding of `expandTextit` at a position where the literal macro head
is present. -/
theorem expandTextit_macroHead (n : Nat) (rest : List Char) :
    expandTextit (n + 1)
        ('\\' :: 't' :: 'e' :: 'x' :: 't' :: 'i' :: 't' :: '{' :: rest) =
      (match rest.takeWhile (fun c => c ≠ '}'),
          rest.dropWhile (fun c => c ≠ '}') with
       | c0 :: ctail, '}' :: rest3 =>
         '<' :: 'i' :: '>' :: (c0 :: ctail) ++
           '<' :: '/' :: 'i' :: '>' :: expandTextit n rest3
       | _, _ =>
         '\\' :: expandTextit n
           ('t' :: 'e' :: 'x' :: 't' :: 'i' :: 't' :: '{' :: rest)) := rfl

/-- One well-formed emphasis macro with clean surroundings expands to the
italic tags with the content copied verbatim. -/
theorem expandTextit_emph :
    ∀ {p : List Char} {fuel : Nat} {s q : List Char}, '\\' ∉ p → '}' ∉ s →
      s ≠ [] → hasTextitMacro q = false → p.length + 1 ≤ fuel →
      expandTextit fuel
          (p ++ '\\' :: 't' :: 'e' :: 'x' :: 't' :: 'i' :: 't' :: '{' ::
            (s ++ '}' :: q)) =
        p ++ '<' :: 'i' :: '>' :: (s ++ '<' :: '/' :: 'i' :: '>' :: q) := by
  intro p
  induction p with
  | nil =>
    intro fuel s q _ hs hsne hq hfuel
    match fuel, hfuel with
    | n + 1, _ =>
      rw [List.nil_append, List.nil_append, expandTextit_macroHead]
      have hsp : ∀ c ∈ s, (fun c => decide (c ≠ '}')) c = true := by
        intro c hc
        simp only [decide_eq_true_eq]
        exact fun habs => hs (habs ▸ hc)
      have htw : (s ++ '}' :: q).takeWhile (fun c => c ≠ '}') = s :=
        (takeWhile_append_stop hsp (by simp)).1
      have hdw : (s ++ '}' :: q).dropWhile (fun c => c ≠ '}') = '}' :: q :=
        (takeWhile_append_stop hsp (by simp)).2
      rw [htw, hdw]
      match s, hsne with
      | c0 :: ctail, _ =>
        show '<' :: 'i' :: '>' :: (c0 :: ctail) ++
            '<' :: '/' :: 'i' :: '>' :: expandTextit n q =
          '<' :: 'i' :: '>' :: (c0 :: ctail ++ '<' :: '/' :: 'i' :: '>' :: q)
        rw [expandTextit_id _ hq]
        simp
  | cons c rest ih =>
    intro fuel s q hp hs hsne hq hfuel
    have hc : c ≠ '\\' := fun habs => hp (habs ▸ List.mem_cons_self c rest)
    have hprest : '\\' ∉ rest := fun hm => hp (List.mem_cons_of_mem _ hm)
    match fuel, hfuel with
    | n + 1, hf =>
      have hn : rest.length + 1 ≤ n := by
        simp only [List.length_cons] at hf
        omega
      rw [List.cons_append, expandTextit.eq_def]
      dsimp only
      split
      · rename_i heq; cases heq
      · rename_i rest' heq
        injection heq with h1 h2
        exact absurd h1 hc
      · rename_i c' rest' heq
        injection heq with h1 h2
        subst h1
        subst h2
        rw [ih hprest hs hsne hq hn]
        simp

theorem gsubLtEnd_of_getLast :
    ∀ {t : List Char}, t.getLast? ≠ some '<' → gsubLtEnd t = t := by
  intro t
  induction t with
  | nil => intro _; rfl
  | cons c rest ih =>
    intro h
    cases rest with
    | nil =>
      have hc : c ≠ '<' := by
        intro habs
        exact h (by rw [habs]; rfl)
      rw [gsubLtEnd.eq_def]
      split
      · rename_i heq; cases heq
      · rename_i heq
        injection heq with h1 h2
        exact absurd h1 hc
      · rename_i c' rest' heq
        injection heq with h1 h2
        subst h1
        subst h2
        rfl
    | cons d rest2 =>
      rw [gsubLtEnd.eq_def]
      split
      · rename_i heq; cases heq
      · rename_i heq
        injection heq with h1 h2
        cases h2
      · rename_i c' rest' heq
        injection heq with h1 h2
        subst h1
        subst h2
        rw [ih (by rwa [List.getLast?_cons_cons] at h)]

theorem gsubGtStart_of_head {t : List Char} (h : t.head? ≠ some '>') :
    gsubGtStart t = t := by
  cases t with
  | nil => rfl
  | cons c rest =>
    have hc : c ≠ '>' := by
      intro habs
      exact h (by rw [habs]; rfl)
    rw [gsubGtStart.eq_def]
    split
    · rename_i heq
      injection heq with h1 h2
      exact absurd h1 hc
    · rfl

theorem textitMatchAt_eq_false_of_head {c : Char} (rest : List Char)
    (h : c ≠ '\\') : textitMatchAt (c :: rest) = false := by
  rw [textitMatchAt.eq_def]
  split
  · rename_i heq
    injection heq with h1 h2
    exact absurd h1 h
  · rfl

theorem hasTextitMacro_eq_false : ∀ {q : List Char}, '\\' ∉ q →
    hasTextitMacro q = false := by
  intro q
  induction q with
  | nil => intro _; rfl
  | cons c rest ih =>
    intro h
    have hc : c ≠ '\\' := fun habs => h (habs ▸ List.mem_cons_self c rest)
    rw [hasTextitMacro, textitMatchAt_eq_false_of_head rest hc,
      ih (fun hm => h (List.mem_cons_of_mem _ hm))]
    rfl

/-- The escaping passes leave the expanded `<i>...</i>` fragment (with
clean surroundings) untouched. -/
theorem escapeChain_itag {p s q : List Char}
    (hp : ∀ c ∈ p, c ∉ reservedChars)
    (hs : ∀ c ∈ s, c ∉ reservedChars)
    (hq : ∀ c ∈ q, c ∉ reservedChars) :
    escapeChain (p ++ '<' :: 'i' :: '>' :: (s ++ '<' :: '/' :: 'i' :: '>' :: q)) =
      p ++ '<' :: 'i' :: '>' :: (s ++ '<' :: '/' :: 'i' :: '>' :: q) := by
  have hpLt : '<' ∉ p := fun hm => hp _ hm (by decide)
  have hsLt : '<' ∉ s := fun hm => hs _ hm (by decide)
  have hqLt : '<' ∉ q := fun hm => hq _ hm (by decide)
  have hpGt : '>' ∉ p := fun hm => hp _ hm (by decide)
  have hsGt : '>' ∉ s := fun hm => hs _ hm (by decide)
  have hqGt : '>' ∉ q := fun hm => hq _ hm (by decide)
  have hampE : '&' ∉
      p ++ '<' :: 'i' :: '>' :: (s ++ '<' :: '/' :: 'i' :: '>' :: q) := by
    intro hm
    simp only [List.mem_append, List.mem_cons] at hm
    rcases hm with h | h | h | h | h | h | h | h | h | h
    · exact hp _ h (by decide)
    all_goals first
      | exact absurd h (by decide)
      | exact hs _ h (by decide)
      | exact hq _ h (by decide)
  have hquotE : '"' ∉
      p ++ '<' :: 'i' :: '>' :: (s ++ '<' :: '/' :: 'i' :: '>' :: q) := by
    intro hm
    simp only [List.mem_append, List.mem_cons] at hm
    rcases hm with h | h | h | h | h | h | h | h | h | h
    · exact hp _ h (by decide)
    all_goals first
      | exact absurd h (by decide)
      | exact hs _ h (by decide)
      | exact hq _ h (by decide)
  have haposE : '\'' ∉
      p ++ '<' :: 'i' :: '>' :: (s ++ '<' :: '/' :: 'i' :: '>' :: q) := by
    intro hm
    simp only [List.mem_append, List.mem_cons] at hm
    rcases hm with h | h | h | h | h | h | h | h | h | h
    · exact hp _ h (by decide)
    all_goals first
      | exact absurd h (by decide)
      | exact hs _ h (by decide)
      | exact hq _ h (by decide)
  have hlt : gsubLt
      (p ++ '<' :: 'i' :: '>' :: (s ++ '<' :: '/' :: 'i' :: '>' :: q)) =
      p ++ '<' :: 'i' :: '>' :: (s ++ '<' :: '/' :: 'i' :: '>' :: q) := by
    rw [gsubLt_append hpLt, gsubLt_lt_tag _ (Or.inl rfl),
      gsubLt_cons_ne _ (by decide), gsubLt_cons_ne _ (by decide),
      gsubLt_append hsLt, gsubLt_lt_tag _ (Or.inr rfl),
      gsubLt_cons_ne _ (by decide), gsubLt_cons_ne _ (by decide),
      gsubLt_cons_ne _ (by decide), gsubLt_id hqLt]
  have hlast :
      (p ++ '<' :: 'i' :: '>' :: (s ++ '<' :: '/' :: 'i' :: '>' :: q)).getLast? ≠
        some '<' := by
    have hE : p ++ '<' :: 'i' :: '>' :: (s ++ '<' :: '/' :: 'i' :: '>' :: q) =
        (p ++ '<' :: 'i' :: '>' :: (s ++ ['<', '/', 'i'])) ++ '>' :: q := by
      simp
    rw [hE, List.getLast?_append_of_ne_nil _ (by simp)]
    intro habs
    rcases List.mem_cons.mp (List.mem_of_mem_getLast? habs) with h | h
    · exact absurd h (by decide)
    · exact hq _ h (by decide)
  have hsWhead : (s ++ '<' :: '/' :: 'i' :: '>' :: q).head? ≠ some '>' := by
    cases s with
    | nil => simp
    | cons a s2 =>
      have ha : a ≠ '>' := fun habs => hsGt (habs ▸ List.mem_cons_self a s2)
      simpa using ha
  have hqhead : q.head? ≠ some '>' := by
    cases q with
    | nil => simp
    | cons a q2 =>
      have ha : a ≠ '>' := fun habs => hqGt (habs ▸ List.mem_cons_self a q2)
      simpa using ha
  have hgt : gsubGt
      (p ++ '<' :: 'i' :: '>' :: (s ++ '<' :: '/' :: 'i' :: '>' :: q)) =
      p ++ '<' :: 'i' :: '>' :: (s ++ '<' :: '/' :: 'i' :: '>' :: q) := by
    rw [gsubGt_append hpGt (fun hv _ => absurd hv (by simp)),
      gsubGt_cons_of_head (by simp), gsubGt_i_gt,
      gsubGt_cons_of_head hsWhead,
      gsubGt_append hsGt (fun hv _ => absurd hv (by simp)),
      gsubGt_cons_of_head (by simp), gsubGt_cons_of_head (by simp),
      gsubGt_i_gt, gsubGt_cons_of_head hqhead, gsubGt_id hqGt]
  have hEhead :
      (p ++ '<' :: 'i' :: '>' :: (s ++ '<' :: '/' :: 'i' :: '>' :: q)).head? ≠
        some '>' := by
    cases p with
    | nil => simp
    | cons a p2 =>
      have ha : a ≠ '>' := fun habs => hpGt (habs ▸ List.mem_cons_self a p2)
      simpa using ha
  unfold escapeChain
  rw [gsubAmp_id hampE, hlt, gsubLtEnd_of_getLast hlast, hgt,
    gsubGtStart_of_head hEhead, gsubQuot_id hquotE, gsubApos_id haposE]

/-- **C3 (amended).**  The escaper converts the emphasis macro to an
italic tag first, and the `<`/`>` characters of the tags it introduces
survive the subsequent escaping untouched (shown here for a well-formed
macro with surroundings free of reserved characters and backslashes).
However, the escaping exceptions are purely character-based (`<` kept
before `i` or `/`, `>` kept after `i`), so literal text of those shapes
also survives unescaped, as the counterexample shows. -/
theorem C3_theorem (p s q : List Char)
    (hpb : '\\' ∉ p) (hpr : ∀ c ∈ p, c ∉ reservedChars)
    (hsb : '}' ∉ s) (hsne : s ≠ []) (hsr : ∀ c ∈ s, c ∉ reservedChars)
    (hqb : '\\' ∉ q) (hqr : ∀ c ∈ q, c ∉ reservedChars) :
    convert_latex_to_html
        (p ++ '\\' :: 't' :: 'e' :: 'x' :: 't' :: 'i' :: 't' :: '{' ::
          (s ++ '}' :: q)) =
      p ++ '<' :: 'i' :: '>' :: (s ++ '<' :: '/' :: 'i' :: '>' :: q) := by
  unfold convert_latex_to_html
  rw [expandTextit_emph hpb hsb hsne (hasTextitMacro_eq_false hqb)
    (by simp [List.length_append])]
  exact escapeChain_itag hpr hsr hqr

/-- **C3, witness.** -/
theorem C3_witness :
    convert_latex_to_html
        (("see ").data ++ '\\' :: 't' :: 'e' :: 'x' :: 't' :: 'i' :: 't' :: '{' ::
          (("hi").data ++ '}' :: (" ok.").data)) =
      ("see ").data ++ '<' :: 'i' :: '>' ::
        (("hi").data ++ '<' :: '/' :: 'i' :: '>' :: (" ok.").data) :=
  C3_theorem _ _ _ (by decide) (by decide) (by decide) (by decide) (by decide)
    (by decide) (by decide)

/-! ### The comparator of line 87 is a strict weak order -/

theorem listLtCh_irrefl : ∀ l : List Char, listLtCh l l = false := by
  intro l
  induction l with
  | nil => rfl
  | cons c rest ih => rw [listLtCh]; simp [lt_irrefl, ih]

theorem listLtCh_asymm : ∀ {a b : List Char},
    listLtCh a b = true → listLtCh b a = false := by
  intro a
  induction a with
  | nil =>
    intro b h
    cases b with
    | nil => cases h
    | cons y ys => rfl
  | cons x xs ih =>
    intro b h
    cases b with
    | nil => cases h
    | cons y ys =>
      rw [listLtCh] at h ⊢
      by_cases hxy : x < y
      · simp [hxy, asymm hxy]
      · by_cases hyx : y < x
        · simp [hxy, hyx] at h
        · simp only [hxy, hyx, if_false] at h ⊢
          exact ih h

theorem listLtCh_nlt_trans : ∀ {a b c : List Char},
    listLtCh b a = false → listLtCh c b = false → listLtCh c a = false := by
  intro a
  induction a with
  | nil =>
    intro b c _ _
    cases c with
    | nil => rfl
    | cons z zs => rfl
  | cons x xs ih =>
    intro b c h1 h2
    cases b with
    | nil => simp [listLtCh] at h1
    | cons y ys =>
      cases c with
      | nil => simp [listLtCh] at h2
      | cons z zs =>
        rw [listLtCh] at h1 h2 ⊢
        have hyx : ¬ y < x := by
          intro habs
          simp [habs] at h1
        have hzy : ¬ z < y := by
          intro habs
          simp [habs] at h2
        have hxley : x ≤ y := le_of_not_lt hyx
        have hylez : y ≤ z := le_of_not_lt hzy
        have hzx : ¬ z < x := not_lt.mpr (le_trans hxley hylez)
        rw [if_neg hzx]
        by_cases hxz : x < z
        · rw [if_pos hxz]
        · rw [if_neg hxz]
          have hxz2 : x = z := le_antisymm (le_trans hxley hylez)
            (le_of_not_lt hxz)
          have hxy2 : x = y := le_antisymm hxley (by rw [hxz2]; exact hylez)
          have hnxy : ¬ x < y := by
            rw [← hxy2]
            exact lt_irrefl x
          have hnyz : ¬ y < z := by
            rw [← hxy2, hxz2]
            exact lt_irrefl z
          have h1t : listLtCh ys xs = false := by simpa [hyx, hnxy] using h1
          have h2t : listLtCh zs ys = false := by simpa [hzy, hnyz] using h2
          exact ih h1t h2t

theorem termLt_irrefl (a : TermEntry) : termLt a a = false :=
  listLtCh_irrefl _

theorem termLt_asymm {a b : TermEntry} (h : termLt a b = true) :
    termLt b a = false :=
  listLtCh_asymm h

theorem termLt_nlt_trans {a b c : TermEntry} (h1 : termLt b a = false)
    (h2 : termLt c b = false) : termLt c a = false :=
  listLtCh_nlt_trans h1 h2

/-! ### Index bookkeeping for the sort -/

theorem length_swapE (a : List TermEntry) (i j : Nat) :
    (swapE a i j).length = a.length := by
  unfold swapE
  split <;> simp

theorem getE_swapE_fst {a : List TermEntry} {i j : Nat}
    (hi : i < a.length) (hj : j < a.length) (hij : i ≠ j) :
    getE (swapE a i j) i = getE a j := by
  unfold swapE getE
  rw [if_pos ⟨hi, hj⟩]
  rw [List.getD_eq_getElem _ _ (by simp only [List.length_set]; omega),
    List.getElem_set_ne (by omega), List.getElem_set_self,
    List.getD_eq_getElem _ _ hj]

theorem getE_swapE_snd {a : List TermEntry} {i j : Nat}
    (hi : i < a.length) (hj : j < a.length) :
    getE (swapE a i j) j = getE a i := by
  unfold swapE getE
  by_cases hij : i = j
  · subst hij
    rw [if_pos ⟨hi, hi⟩]
    rw [List.getD_eq_getElem _ _ (by simp only [List.length_set]; omega), List.getElem_set_self]
  · rw [if_pos ⟨hi, hj⟩]
    rw [List.getD_eq_getElem _ _ (by simp only [List.length_set]; omega), List.getElem_set_self]

theorem getE_swapE_other {a : List TermEntry} {i j k : Nat}
    (hki : k ≠ i) (hkj : k ≠ j) :
    getE (swapE a i j) k = getE a k := by
  unfold swapE getE
  split
  · rename_i hb
    by_cases hk : k < a.length
    · rw [List.getD_eq_getElem _ _ (by simp only [List.length_set]; omega),
        List.getElem_set_ne (by omega), List.getElem_set_ne (by omega),
        List.getD_eq_getElem _ _ hk]
    · rw [List.getD_eq_default _ _ (by simp only [List.length_set]; omega),
        List.getD_eq_default _ _ (by omega)]
  · rfl

/-- `scanUpF` stops at the first index whose element is not below the
pivot; a known stopper `m0` within fuel range bounds the scan. -/
theorem scanUpF_spec (a : List TermEntry) (P : TermEntry) :
    ∀ (fuel k m0 : Nat), k ≤ m0 → m0 ≤ k + fuel →
      termLt (getE a m0) P = false →
      k ≤ scanUpF a P fuel k ∧ scanUpF a P fuel k ≤ m0 ∧
      termLt (getE a (scanUpF a P fuel k)) P = false ∧
      ∀ j, k ≤ j → j < scanUpF a P fuel k → termLt (getE a j) P = true := by
  intro fuel
  induction fuel with
  | zero =>
    intro k m0 hkm hmk hstop
    have hk : k = m0 := by omega
    subst hk
    rw [scanUpF]
    exact ⟨le_refl _, le_refl _, hstop, fun j h1 h2 => absurd h2 (by omega)⟩
  | succ n ih =>
    intro k m0 hkm hmk hstop
    rw [scanUpF]
    by_cases hlt : termLt (getE a k) P = true
    · have hkm0 : k ≠ m0 := by
        intro habs
        rw [habs, hstop] at hlt
        cases hlt
      have h1 : k + 1 ≤ m0 := by omega
      have h2 : m0 ≤ k + 1 + n := by omega
      rcases ih (k + 1) m0 h1 h2 hstop with ⟨ha, hb, hc, hd⟩
      rw [if_pos hlt]
      refine ⟨by omega, hb, hc, fun j hj1 hj2 => ?_⟩
      by_cases hjk : j = k
      · rw [hjk]; exact hlt
      · exact hd j (by omega) hj2
    · rw [if_neg hlt]
      exact ⟨le_refl _, hkm, Bool.of_not_eq_true hlt,
        fun j h1 h2 => absurd h2 (by omega)⟩

/-- `scanDownF` stops at the first index (downwards) whose element is not
above the pivot. -/
theorem scanDownF_spec (a : List TermEntry) (P : TermEntry) :
    ∀ (fuel k m0 : Nat), m0 ≤ k → k ≤ m0 + fuel →
      termLt P (getE a m0) = false →
      scanDownF a P fuel k ≤ k ∧ m0 ≤ scanDownF a P fuel k ∧
      termLt P (getE a (scanDownF a P fuel k)) = false ∧
      ∀ j, scanDownF a P fuel k < j → j ≤ k → termLt P (getE a j) = true := by
  intro fuel
  induction fuel with
  | zero =>
    intro k m0 hkm hmk hstop
    have hk : k = m0 := by omega
    subst hk
    rw [scanDownF]
    exact ⟨le_refl _, le_refl _, hstop, fun j h1 h2 => absurd h1 (by omega)⟩
  | succ n ih =>
    intro k m0 hkm hmk hstop
    rw [scanDownF]
    by_cases hlt : termLt P (getE a k) = true
    · have hkm0 : k ≠ m0 := by
        intro habs
        rw [habs, hstop] at hlt
        cases hlt
      have h1 : m0 ≤ k - 1 := by omega
      have h2 : k - 1 ≤ m0 + n := by omega
      rcases ih (k - 1) m0 h1 h2 hstop with ⟨ha, hb, hc, hd⟩
      rw [if_pos hlt]
      refine ⟨by omega, hb, hc, fun j hj1 hj2 => ?_⟩
      by_cases hjk : j = k
      · rw [hjk]; exact hlt
      · exact hd j (by omega) (by omega)
    · rw [if_neg hlt]
      exact ⟨le_refl _, hkm, Bool.of_not_eq_true hlt,
        fun j h1 h2 => absurd h1 (by omega)⟩

theorem getE_swapE_fst' {a : List TermEntry} {i j : Nat}
    (hi : i < a.length) (hj : j < a.length) :
    getE (swapE a i j) i = getE a j := by
  by_cases hij : i = j
  · subst hij
    exact getE_swapE_snd hi hi
  · exact getE_swapE_fst hi hj hij

theorem rangeSub_refl (a : List TermEntry) (lo up : Nat) :
    rangeSub a a lo up :=
  fun m h1 h2 => ⟨m, h1, h2, rfl⟩

theorem rangeSub_trans {c b a : List TermEntry} {lo up : Nat}
    (h1 : rangeSub c b lo up) (h2 : rangeSub b a lo up) :
    rangeSub c a lo up := by
  intro m hm1 hm2
  rcases h1 m hm1 hm2 with ⟨k, hk1, hk2, hk3⟩
  rcases h2 k hk1 hk2 with ⟨k2, hk21, hk22, hk23⟩
  exact ⟨k2, hk21, hk22, hk3.trans hk23⟩

theorem rangeSub_swapE {a : List TermEntry} {i j lo up : Nat}
    (hi1 : lo ≤ i) (hi2 : i ≤ up) (hj1 : lo ≤ j) (hj2 : j ≤ up)
    (hil : i < a.length) (hjl : j < a.length) :
    rangeSub (swapE a i j) a lo up := by
  intro m hm1 hm2
  by_cases hmi : m = i
  · subst hmi
    exact ⟨j, hj1, hj2, getE_swapE_fst' hil hjl⟩
  · by_cases hmj : m = j
    · subst hmj
      exact ⟨i, hi1, hi2, getE_swapE_snd hil hjl⟩
    · exact ⟨m, hm1, hm2, getE_swapE_other hmi hmj⟩

/-- Widen a `rangeSub` on a sub-range to the surrounding range, given that
indices outside the sub-range are untouched. -/
theorem rangeSub_widen {b a : List TermEntry} {lo' up' lo up : Nat}
    (hsub : rangeSub b a lo' up') (hlo : lo ≤ lo') (hup : up' ≤ up)
    (hout : ∀ k, (k < lo' ∨ up' < k) → getE b k = getE a k) :
    rangeSub b a lo up := by
  intro m hm1 hm2
  by_cases hin : lo' ≤ m ∧ m ≤ up'
  · rcases hsub m hin.1 hin.2 with ⟨k, hk1, hk2, hk3⟩
    exact ⟨k, by omega, by omega, hk3⟩
  · exact ⟨m, hm1, hm2, hout m (by omega)⟩

/-- Specification of the `partition` loop (`ltablib.c`), 0-based: starting
from a state whose prefix `[lo, i]` is at or below the pivot and whose
suffix `[j, up]` is at or above it (with the pivot parked at `up - 1`),
the loop returns a pivot position `p` with everything left of `p` at or
below `P`, the pivot value at `p`, and everything right of it at or above
`P`; indices outside `[lo, up]` are untouched. -/
theorem partLoopF_spec (P : TermEntry) (lo up : Nat) :
    ∀ (fuel : Nat) (a : List TermEntry) (i j : Nat),
      j - i + 1 ≤ fuel →
      lo ≤ i → i ≤ j → j + 1 ≤ up → i + 2 ≤ up → lo + 1 ≤ j →
      up < a.length →
      (∀ m, lo ≤ m → m ≤ i → termLt P (getE a m) = false) →
      (∀ m, j ≤ m → m ≤ up → termLt (getE a m) P = false) →
      getE a (up - 1) = P →
      i + 1 ≤ (partLoopF P fuel a lo up i j).2 ∧
      (partLoopF P fuel a lo up i j).2 + 1 ≤ up ∧
      (∀ m, lo ≤ m → m < (partLoopF P fuel a lo up i j).2 →
        termLt P (getE (partLoopF P fuel a lo up i j).1 m) = false) ∧
      getE (partLoopF P fuel a lo up i j).1 (partLoopF P fuel a lo up i j).2
        = P ∧
      (∀ m, (partLoopF P fuel a lo up i j).2 < m → m ≤ up →
        termLt (getE (partLoopF P fuel a lo up i j).1 m) P = false) ∧
      (∀ k, (k < lo ∨ up < k) →
        getE (partLoopF P fuel a lo up i j).1 k = getE a k) ∧
      (partLoopF P fuel a lo up i j).1.length = a.length ∧
      rangeSub (partLoopF P fuel a lo up i j).1 a lo up := by
  intro fuel
  induction fuel with
  | zero =>
    intro a i j hfuel
    omega
  | succ n ih =>
    intro a i j hfuel hloi hij hjup hiup hjlo hup hleft hright hpivot
    have hstopUp : termLt (getE a (up - 1)) P = false := by
      rw [hpivot]
      exact termLt_irrefl P
    have hstopDown : termLt P (getE a lo) = false :=
      hleft lo (le_refl lo) hloi
    rcases scanUpF_spec a P (up - 1 - i) (i + 1) (up - 1) (by omega)
        (by omega) hstopUp with ⟨hu1, hu2, hu3, hu4⟩
    rcases scanDownF_spec a P j (j - 1) lo (by omega) (by omega)
        hstopDown with ⟨hd1, hd2, hd3, hd4⟩
    rw [partLoopF]
    split
    · -- the scans crossed: park the pivot at the crossing point and stop
      rename_i hcross
      set q := scanUpF a P (up - 1 - i) (i + 1) with hq
      set r := scanDownF a P j (j - 1) with hr
      have hqlen : q < a.length := by omega
      have hplen : up - 1 < a.length := by omega
      refine ⟨hu1, by omega, ?_, ?_, ?_, ?_, ?_, ?_⟩
      · intro m hm1 hm2
        have hm3 : m ≠ up - 1 := by omega
        rw [getE_swapE_other hm3 (by omega)]
        by_cases hmi : m ≤ i
        · exact hleft m hm1 hmi
        · exact termLt_asymm (hu4 m (by omega) hm2)
      · rw [getE_swapE_snd hplen hqlen, hpivot]
      · intro m hm1 hm2
        by_cases hm3 : m = up - 1
        · subst hm3
          by_cases hq3 : q = up - 1
          · rw [← hq3] at hm1
            omega
          · rw [getE_swapE_fst' hplen hqlen]
            exact hu3
        · have hm4 : m ≠ q := by omega
          rw [getE_swapE_other hm3 hm4]
          by_cases hmj : j ≤ m
          · exact hright m hmj hm2
          · exact termLt_asymm (hd4 m (by omega) (by omega))
      · intro k hk
        exact getE_swapE_other (by omega) (by omega)
      · exact length_swapE a (up - 1) q
      · exact rangeSub_swapE (by omega) (by omega) (by omega) (by omega)
          hplen hqlen
    · -- the scans met: swap the two elements and continue
      rename_i hcross
      set q := scanUpF a P (up - 1 - i) (i + 1) with hq
      set r := scanDownF a P j (j - 1) with hr
      have hqr : q ≤ r := by omega
      have hqlen : q < a.length := by omega
      have hrlen : r < a.length := by omega
      have hleft2 : ∀ m, lo ≤ m → m ≤ q →
          termLt P (getE (swapE a q r) m) = false := by
        intro m hm1 hm2
        by_cases hmq : m = q
        · subst hmq
          rw [getE_swapE_fst' hqlen hrlen]
          exact hd3
        · have hmr : m ≠ r := by omega
          rw [getE_swapE_other hmq hmr]
          by_cases hmi : m ≤ i
          · exact hleft m hm1 hmi
          · exact termLt_asymm (hu4 m (by omega) (by omega))
      have hright2 : ∀ m, r ≤ m → m ≤ up →
          termLt (getE (swapE a q r) m) P = false := by
        intro m hm1 hm2
        by_cases hmr : m = r
        · subst hmr
          rw [getE_swapE_snd hqlen hrlen]
          exact hu3
        · have hmq : m ≠ q := by omega
          rw [getE_swapE_other hmq hmr]
          by_cases hmj : j ≤ m
          · exact hright m hmj hm2
          · exact termLt_asymm (hd4 m (by omega) (by omega))
      have hpivot2 : getE (swapE a q r) (up - 1) = P := by
        rw [getE_swapE_other (by omega) (by omega)]
        exact hpivot
      have hlen2 : up < (swapE a q r).length := by
        rw [length_swapE]
        exact hup
      rcases ih (swapE a q r) q r (by omega) (by omega) hqr (by omega)
        (by omega) (by omega) hlen2 hleft2 hright2 hpivot2 with
        ⟨hp1, hp2, hp3, hp4, hp5, hp6, hp7, hp8⟩
      refine ⟨by omega, hp2, hp3, hp4, hp5, ?_, ?_, ?_⟩
      · intro k hk
        rw [hp6 k hk, getE_swapE_other (by omega) (by omega)]
      · rw [hp7, length_swapE]
      · exact rangeSub_trans hp8
          (rangeSub_swapE (by omega) (by omega) (by omega) (by omega)
            hqlen hrlen)

/-- Lines 163-165 of `ltablib.c`'s `auxsort` (sorting `a[lo]`/`a[up]`). -/
theorem auxA1_spec (a : List TermEntry) (lo up : Nat) (hlt : lo < up)
    (hup : up < a.length) (b : List TermEntry)
    (hb : b = if termLt (getE a up) (getE a lo) = true then swapE a lo up
      else a) :
    termLt (getE b up) (getE b lo) = false ∧ b.length = a.length ∧
    (∀ k, (k < lo ∨ up < k) → getE b k = getE a k) ∧ rangeSub b a lo up := by
  subst hb
  have hlo : lo < a.length := by omega
  by_cases h1 : termLt (getE a up) (getE a lo) = true
  · rw [if_pos h1]
    refine ⟨?_, length_swapE a lo up, ?_, ?_⟩
    · rw [getE_swapE_snd hlo hup, getE_swapE_fst' hlo hup]
      exact termLt_asymm h1
    · intro k hk
      exact getE_swapE_other (by omega) (by omega)
    · exact rangeSub_swapE (le_refl lo) (by omega) (by omega) (le_refl up)
        hlo hup
  · rw [if_neg h1]
    exact ⟨Bool.of_not_eq_true h1, rfl, fun _ _ => rfl, rangeSub_refl a lo up⟩

/-- The median-of-three step: afterwards `a[lo] ≤ a[p] ≤ a[up]` in the
`¬ <` sense. -/
theorem auxA2_spec (a : List TermEntry) (lo up p : Nat) (hp1 : lo < p)
    (hp2 : p < up) (hup : up < a.length)
    (hA1 : termLt (getE a up) (getE a lo) = false) (b : List TermEntry)
    (hb : b = if termLt (getE a p) (getE a lo) = true then swapE a p lo
      else if termLt (getE a up) (getE a p) = true then swapE a p up
      else a) :
    termLt (getE b p) (getE b lo) = false ∧
    termLt (getE b up) (getE b p) = false ∧
    b.length = a.length ∧
    (∀ k, (k < lo ∨ up < k) → getE b k = getE a k) ∧ rangeSub b a lo up := by
  subst hb
  have hlo : lo < a.length := by omega
  have hp : p < a.length := by omega
  by_cases h1 : termLt (getE a p) (getE a lo) = true
  · rw [if_pos h1]
    refine ⟨?_, ?_, length_swapE a p lo, ?_, ?_⟩
    · rw [getE_swapE_fst' hp hlo, getE_swapE_snd hp hlo]
      exact termLt_asymm h1
    · rw [getE_swapE_other (by omega) (by omega), getE_swapE_fst' hp hlo]
      exact hA1
    · intro k hk
      exact getE_swapE_other (by omega) (by omega)
    · exact rangeSub_swapE (by omega) (by omega) (le_refl lo) (by omega)
        hp hlo
  · rw [if_neg h1]
    by_cases h2 : termLt (getE a up) (getE a p) = true
    · rw [if_pos h2]
      refine ⟨?_, ?_, length_swapE a p up, ?_, ?_⟩
      · rw [getE_swapE_fst' hp hup, getE_swapE_other (by omega) (by omega)]
        exact hA1
      · rw [getE_swapE_fst' hp hup, getE_swapE_snd hp hup]
        exact termLt_asymm h2
      · intro k hk
        exact getE_swapE_other (by omega) (by omega)
      · exact rangeSub_swapE (by omega) (by omega) (by omega) (le_refl up)
          hp hup
    · rw [if_neg h2]
      exact ⟨Bool.of_not_eq_true h1, Bool.of_not_eq_true h2, rfl,
        fun _ _ => rfl, rangeSub_refl a lo up⟩

/-- `auxsort` sorts its range: the result has the same length, is untouched
outside `[lo, up]`, draws the elements of `[lo, up]` from that range of the
input, and has no adjacent pair in `[lo, up]` with the later entry strictly
below the earlier one.  Fuel `up - lo + 1` suffices because every recursive
call is on a strictly shorter range. -/
theorem auxsortF_spec :
    ∀ (fuel : Nat) (a : List TermEntry) (lo up : Nat),
      up - lo + 1 ≤ fuel → up < a.length →
      (auxsortF fuel a lo up).length = a.length ∧
      (∀ k, (k < lo ∨ up < k) → getE (auxsortF fuel a lo up) k = getE a k) ∧
      rangeSub (auxsortF fuel a lo up) a lo up ∧
      (∀ m, lo ≤ m → m + 1 ≤ up →
        termLt (getE (auxsortF fuel a lo up) (m + 1))
          (getE (auxsortF fuel a lo up) m) = false) := by
  intro fuel
  induction fuel with
  | zero => intro a lo up hfuel _; omega
  | succ n ih =>
    intro a lo up hfuel hup
    rw [auxsortF]
    by_cases hlt : lo < up
    · rw [if_pos hlt]
      set A1 := (if termLt (getE a up) (getE a lo) = true then swapE a lo up
        else a) with hA1
      rcases auxA1_spec a lo up hlt hup A1 hA1 with ⟨f1, l1, o1, r1⟩
      by_cases h1 : up - lo = 1
      · rw [if_pos h1]
        refine ⟨l1, o1, r1, fun m hm1 hm2 => ?_⟩
        have hm : m = lo := by omega
        have hup2 : up = lo + 1 := by omega
        rw [hm, ← hup2]
        exact f1
      · rw [if_neg h1]
        have hl1 : lo < A1.length := by omega
        have hu1 : up < A1.length := by omega
        have hp1 : lo < (lo + up) / 2 := by omega
        have hp2 : (lo + up) / 2 < up := by omega
        set A2 := (if termLt (getE A1 ((lo + up) / 2)) (getE A1 lo) = true
            then swapE A1 ((lo + up) / 2) lo
          else if termLt (getE A1 up) (getE A1 ((lo + up) / 2)) = true
            then swapE A1 ((lo + up) / 2) up
          else A1) with hA2
        rcases auxA2_spec A1 lo up ((lo + up) / 2) hp1 hp2 (by omega) f1
          A2 hA2 with ⟨f2a, f2b, l2, o2, r2⟩
        by_cases h2 : up - lo = 2
        · rw [if_pos h2]
          refine ⟨?_, ?_, ?_, ?_⟩
          · show A2.length = a.length
            rw [l2, l1]
          · intro k hk
            show getE A2 k = getE a k
            rw [o2 k hk, o1 k hk]
          · show rangeSub A2 a lo up
            exact rangeSub_trans r2 r1
          · intro m hm1 hm2
            have hpval : (lo + up) / 2 = lo + 1 := by omega
            rcases (by omega : m = lo ∨ m = lo + 1) with hm | hm
            · show termLt (getE A2 (m + 1)) (getE A2 m) = false
              rw [hm, ← hpval]
              exact f2a
            · show termLt (getE A2 (m + 1)) (getE A2 m) = false
              rw [hm, (by omega : lo + 1 + 1 = up), ← hpval]
              exact f2b
        · rw [if_neg h2]
          have h3 : lo + 3 ≤ up := by omega
          have key : ∀ (Pv : TermEntry) (a4 : List TermEntry) (pp : Nat),
              a4.length = a.length →
              lo + 1 ≤ pp → pp + 1 ≤ up →
              (∀ m, lo ≤ m → m < pp → termLt Pv (getE a4 m) = false) →
              getE a4 pp = Pv →
              (∀ m, pp < m → m ≤ up → termLt (getE a4 m) Pv = false) →
              (∀ k, (k < lo ∨ up < k) → getE a4 k = getE a k) →
              rangeSub a4 a lo up →
              ∀ out : List TermEntry,
                (out = auxsortF n (auxsortF n a4 lo (pp - 1)) (pp + 1) up ∨
                 out = auxsortF n (auxsortF n a4 (pp + 1) up) lo (pp - 1)) →
                out.length = a.length ∧
                (∀ k, (k < lo ∨ up < k) → getE out k = getE a k) ∧
                rangeSub out a lo up ∧
                (∀ m, lo ≤ m → m + 1 ≤ up →
                  termLt (getE out (m + 1)) (getE out m) = false) := by
            intro Pv a4 pp hlen4 hpp1 hpp2 hL hMid hR hOut hSub out hout
            have hup4 : up < a4.length := by omega
            rcases hout with hout | hout
            · rcases ih a4 lo (pp - 1) (by omega) (by omega) with
                ⟨lb, ob, rb, sb⟩
              have hupb : up < (auxsortF n a4 lo (pp - 1)).length := by omega
              rcases ih (auxsortF n a4 lo (pp - 1)) (pp + 1) up (by omega)
                hupb with ⟨lo2, oo, ro, so⟩
              subst hout
              refine ⟨by omega, ?_, ?_, ?_⟩
              · intro k hk
                rw [oo k (by omega), ob k (by omega)]
                exact hOut k hk
              · exact rangeSub_trans (rangeSub_trans
                  (rangeSub_widen ro (by omega) (le_refl up) oo)
                  (rangeSub_widen rb (le_refl lo) (by omega) ob)) hSub
              · intro m hm1 hm2
                by_cases hc1 : m + 1 ≤ pp - 1
                · rw [oo m (by omega), oo (m + 1) (by omega)]
                  exact sb m hm1 (by omega)
                · by_cases hc2 : m + 1 = pp
                  · have hq : getE (auxsortF n (auxsortF n a4 lo (pp - 1))
                        (pp + 1) up) pp = Pv := by
                      rw [oo pp (by omega), ob pp (by omega)]
                      exact hMid
                    rcases rb m hm1 (by omega) with ⟨k, hk1, hk2, hk3⟩
                    rw [hc2, hq, oo m (by omega), hk3]
                    exact hL k hk1 (by omega)
                  · by_cases hc3 : m = pp
                    · have hq : getE (auxsortF n (auxsortF n a4 lo (pp - 1))
                          (pp + 1) up) pp = Pv := by
                        rw [oo pp (by omega), ob pp (by omega)]
                        exact hMid
                      rcases ro (m + 1) (by omega) (by omega) with
                        ⟨k, hk1, hk2, hk3⟩
                      rw [hk3, ob k (by omega), hc3, hq]
                      exact hR k (by omega) hk2
                    · exact so m (by omega) hm2
            · rcases ih a4 (pp + 1) up (by omega) hup4 with ⟨ld, od, rd, sd⟩
              have hupd : pp - 1 < (auxsortF n a4 (pp + 1) up).length := by
                omega
              rcases ih (auxsortF n a4 (pp + 1) up) lo (pp - 1) (by omega)
                hupd with ⟨lo2, oo, ro, so⟩
              subst hout
              refine ⟨by omega, ?_, ?_, ?_⟩
              · intro k hk
                rw [oo k (by omega), od k (by omega)]
                exact hOut k hk
              · exact rangeSub_trans (rangeSub_trans
                  (rangeSub_widen ro (le_refl lo) (by omega) oo)
                  (rangeSub_widen rd (by omega) (le_refl up) od)) hSub
              · intro m hm1 hm2
                by_cases hc1 : m + 1 ≤ pp - 1
                · exact so m hm1 (by omega)
                · by_cases hc2 : m + 1 = pp
                  · have hq : getE (auxsortF n (auxsortF n a4 (pp + 1) up)
                        lo (pp - 1)) pp = Pv := by
                      rw [oo pp (by omega), od pp (by omega)]
                      exact hMid
                    rcases ro m hm1 (by omega) with ⟨k, hk1, hk2, hk3⟩
                    rw [hc2, hq, hk3, od k (by omega)]
                    exact hL k hk1 (by omega)
                  · by_cases hc3 : m = pp
                    · have hq : getE (auxsortF n (auxsortF n a4 (pp + 1) up)
                          lo (pp - 1)) pp = Pv := by
                        rw [oo pp (by omega), od pp (by omega)]
                        exact hMid
                      rcases rd (m + 1) (by omega) (by omega) with
                        ⟨k, hk1, hk2, hk3⟩
                      rw [oo (m + 1) (by omega), hk3, hc3, hq]
                      exact hR k (by omega) hk2
                    · rw [oo m (by omega), oo (m + 1) (by omega)]
                      exact sd m (by omega) hm2
          have hl2 : lo < A2.length := by omega
          have hu2 : up < A2.length := by omega
          have hpl2 : (lo + up) / 2 < A2.length := by omega
          have hu3 : up < (swapE A2 ((lo + up) / 2) (up - 1)).length := by
            rw [length_swapE]
            omega
          have hpivot : getE (swapE A2 ((lo + up) / 2) (up - 1)) (up - 1)
              = getE A2 ((lo + up) / 2) :=
            getE_swapE_snd hpl2 (by omega)
          have hleft : ∀ m, lo ≤ m → m ≤ lo →
              termLt (getE A2 ((lo + up) / 2))
                (getE (swapE A2 ((lo + up) / 2) (up - 1)) m) = false := by
            intro m hm1 hm2
            have hm : m = lo := by omega
            rw [hm, getE_swapE_other (by omega) (by omega)]
            exact f2a
          have hright : ∀ m, up - 1 ≤ m → m ≤ up →
              termLt (getE (swapE A2 ((lo + up) / 2) (up - 1)) m)
                (getE A2 ((lo + up) / 2)) = false := by
            intro m hm1 hm2
            rcases (by omega : m = up - 1 ∨ m = up) with hm | hm
            · rw [hm, hpivot]
              exact termLt_irrefl _
            · rw [hm, getE_swapE_other (by omega) (by omega)]
              exact f2b
          rcases partLoopF_spec (getE A2 ((lo + up) / 2)) lo up (up - lo + 1)
              (swapE A2 ((lo + up) / 2) (up - 1)) lo (up - 1)
              (by omega) (le_refl lo) (by omega) (by omega) (by omega)
              (by omega) hu3 hleft hright hpivot with
            ⟨hi1, hi2, hq3, hq4, hq5, hq6, hq7, hq8⟩
          set pr := partLoopF (getE A2 ((lo + up) / 2)) (up - lo + 1)
            (swapE A2 ((lo + up) / 2) (up - 1)) lo up lo (up - 1) with hprd
          have hlen4 : pr.1.length = a.length := by
            rw [hq7, length_swapE]
            omega
          have ho4 : ∀ k, (k < lo ∨ up < k) → getE pr.1 k = getE a k := by
            intro k hk
            rw [hq6 k hk, getE_swapE_other (by omega) (by omega),
              o2 k hk, o1 k hk]
          have hr4 : rangeSub pr.1 a lo up :=
            rangeSub_trans hq8 (rangeSub_trans
              (rangeSub_swapE (by omega) (by omega) (by omega) (by omega)
                hpl2 (by omega))
              (rangeSub_trans r2 r1))
          have hdisj : (if pr.2 - lo < up - pr.2 then
                auxsortF n (auxsortF n pr.1 lo (pr.2 - 1)) (pr.2 + 1) up
              else auxsortF n (auxsortF n pr.1 (pr.2 + 1) up) lo (pr.2 - 1)) =
                auxsortF n (auxsortF n pr.1 lo (pr.2 - 1)) (pr.2 + 1) up ∨
              (if pr.2 - lo < up - pr.2 then
                auxsortF n (auxsortF n pr.1 lo (pr.2 - 1)) (pr.2 + 1) up
              else auxsortF n (auxsortF n pr.1 (pr.2 + 1) up) lo (pr.2 - 1)) =
                auxsortF n (auxsortF n pr.1 (pr.2 + 1) up) lo (pr.2 - 1) := by
            by_cases hside : pr.2 - lo < up - pr.2
            · exact Or.inl (if_pos hside)
            · exact Or.inr (if_neg hside)
          exact key (getE A2 ((lo + up) / 2)) pr.1 pr.2 hlen4 hi1 hi2
            hq3 hq4 hq5 ho4 hr4 _ hdisj
    · rw [if_neg hlt]
      exact ⟨rfl, fun _ _ => rfl, rangeSub_refl a lo up,
        fun m hm1 hm2 => absurd (by omega) hlt⟩

/-- Adjacent non-descent at every index gives `chainSorted`. -/
theorem chainSorted_of_adjacent :
    ∀ l : List TermEntry,
      (∀ m, m + 1 < l.length → termLt (getE l (m + 1)) (getE l m) = false) →
      chainSorted l = true
  | [], _ => rfl
  | [_], _ => rfl
  | a :: b :: t, h => by
    rw [chainSorted]
    have h0 : termLt b a = false := h 0 (by simp)
    rw [h0]
    simp only [Bool.not_false, Bool.true_and]
    exact chainSorted_of_adjacent (b :: t) (fun m hm => h (m + 1) (by
      simp only [List.length_cons] at hm ⊢
      omega))

/-- `table.sort` returns a list of the same length whose adjacent entries
never strictly descend under the comparator. -/
theorem luaTableSort_sorted (l : List TermEntry) :
    (luaTableSort l).length = l.length ∧ chainSorted (luaTableSort l) = true := by
  rcases List.eq_nil_or_concat l with hnil | ⟨_, _, hne⟩
  · subst hnil
    exact ⟨rfl, rfl⟩
  · have hlen : 0 < l.length := by
      subst hne
      simp
    rcases auxsortF_spec (l.length + 1) l 0 (l.length - 1) (by omega)
      (by omega) with ⟨hlenq, _, _, hsort⟩
    refine ⟨hlenq, chainSorted_of_adjacent _ ?_⟩
    intro m hm
    simp only [luaTableSort] at hm ⊢
    rw [hlenq] at hm
    exact hsort m (Nat.zero_le m) (by omega)

/-- **C4 (amended).**  For every input content, the extractor's output is
sorted by term under the case-insensitive lexicographic comparison of line
87 (no adjacent entry is strictly below its predecessor), it has as many
entries as were extracted, and every output entry is one of the extracted
entries.  The stability half of the claim is false: `table.sort` is not
stable (see the counterexample). -/
theorem C4_theorem (content : List Char) :
    chainSorted (parse_terms content) = true ∧
    (parse_terms content).length = (collectTerms content).length ∧
    ∀ e ∈ parse_terms content, e ∈ collectTerms content :=
  ⟨(luaTableSort_sorted (collectTerms content)).2,
    (luaTableSort_sorted (collectTerms content)).1,
    fun _ he => mem_luaTableSort he⟩

/-- **C4, witness.** -/
theorem C4_witness :
    (⟨['B'], ['x']⟩ : TermEntry) ∈
      parse_terms ("\\term{B} x\n\\term{a} y").data ∧
    (⟨['B'], ['x']⟩ : TermEntry) ∈
      collectTerms ("\\term{B} x\n\\term{a} y").data ∧
    chainSorted (parse_terms ("\\term{B} x\n\\term{a} y").data) = true :=
  ⟨by decide, (C4_theorem ("\\term{B} x\n\\term{a} y").data).2.2 _ (by decide),
    (C4_theorem ("\\term{B} x\n\\term{a} y").data).1⟩

/-! ### C10: the escaping exceptions are character-based -/

theorem count2_cons (x y c : Char) (l : List Char) :
    count2 x y (c :: l) =
      (if c = x ∧ l.head? = some y then 1 else 0) + count2 x y l := by
  cases l with
  | nil => simp [count2]
  | cons d l2 => simp [count2, List.head?]

theorem count2_cons_ne {x c : Char} (y : Char) (h : c ≠ x) (l : List Char) :
    count2 x y (c :: l) = count2 x y l := by
  rw [count2_cons, if_neg (fun hc => h hc.1), Nat.zero_add]

theorem count2_if_le {x y c : Char} {l l2 : List Char}
    (h : l.head? = some y → l2.head? = some y) :
    (if c = x ∧ l.head? = some y then 1 else 0) ≤
      (if c = x ∧ l2.head? = some y then 1 else 0) := by
  by_cases hcond : c = x ∧ l.head? = some y
  · rw [if_pos hcond, if_pos ⟨hcond.1, h hcond.2⟩]
  · rw [if_neg hcond]
    exact Nat.zero_le _

theorem head?_gsubAmp (l : List Char) : (gsubAmp l).head? = l.head? := by
  rw [gsubAmp.eq_def]
  split
  · rfl
  · rfl
  · rfl

theorem head?_gsubGt (l : List Char) : (gsubGt l).head? = l.head? := by
  rw [gsubGt.eq_def]
  split
  · rfl
  · split <;> rfl
  · rfl

theorem head?_gsubLt {l : List Char} {d : Char} (h : l.head? = some d)
    (hd : d ≠ '<') : (gsubLt l).head? = some d := by
  rw [gsubLt.eq_def]
  split
  · cases h
  · simp only [List.head?, Option.some.injEq] at h
    exact absurd h.symm hd
  · simp only [List.head?, Option.some.injEq] at h
    subst h
    rfl

theorem head?_gsubLtEnd {l : List Char} {d : Char} (h : l.head? = some d)
    (hd : d ≠ '<') : (gsubLtEnd l).head? = some d := by
  rw [gsubLtEnd.eq_def]
  split
  · cases h
  · simp only [List.head?, Option.some.injEq] at h
    exact absurd h.symm hd
  · simp only [List.head?, Option.some.injEq] at h
    subst h
    rfl

theorem head?_gsubQuot {l : List Char} {d : Char} (h : l.head? = some d)
    (hd : d ≠ '"') : (gsubQuot l).head? = some d := by
  rw [gsubQuot.eq_def]
  split
  · cases h
  · simp only [List.head?, Option.some.injEq] at h
    exact absurd h.symm hd
  · simp only [List.head?, Option.some.injEq] at h
    subst h
    rfl

theorem head?_gsubApos {l : List Char} {d : Char} (h : l.head? = some d)
    (hd : d ≠ '\'') : (gsubApos l).head? = some d := by
  rw [gsubApos.eq_def]
  split
  · cases h
  · simp only [List.head?, Option.some.injEq] at h
    exact absurd h.symm hd
  · simp only [List.head?, Option.some.injEq] at h
    subst h
    rfl

theorem gsubAmp_cons_ne {c : Char} (X : List Char) (h : c ≠ '&') :
    gsubAmp (c :: X) = c :: gsubAmp X := by
  rw [gsubAmp.eq_def]
  split
  · rename_i heq; cases heq
  · rename_i rest2 heq
    injection heq with h1 h2
    exact absurd h1 h
  · rename_i c2 rest2 heq
    injection heq with h1 h2
    subst h1
    subst h2
    rfl

theorem gsubQuot_cons_ne {c : Char} (X : List Char) (h : c ≠ '"') :
    gsubQuot (c :: X) = c :: gsubQuot X := by
  rw [gsubQuot.eq_def]
  split
  · rename_i heq; cases heq
  · rename_i rest2 heq
    injection heq with h1 h2
    exact absurd h1 h
  · rename_i c2 rest2 heq
    injection heq with h1 h2
    subst h1
    subst h2
    rfl

theorem gsubApos_cons_ne {c : Char} (X : List Char) (h : c ≠ '\'') :
    gsubApos (c :: X) = c :: gsubApos X := by
  rw [gsubApos.eq_def]
  split
  · rename_i heq; cases heq
  · rename_i rest2 heq
    injection heq with h1 h2
    exact absurd h1 h
  · rename_i c2 rest2 heq
    injection heq with h1 h2
    subst h1
    subst h2
    rfl

theorem count2_gsubAmp_ge (x y : Char) (hx1 : x ≠ '&') (hx2 : x ≠ 'a')
    (hx3 : x ≠ 'm') (hx4 : x ≠ 'p') (hx5 : x ≠ ';') :
    ∀ l : List Char, count2 x y l ≤ count2 x y (gsubAmp l) := by
  intro l
  induction l with
  | nil => exact Nat.le_refl 0
  | cons c rest ih =>
    by_cases hc : c = '&'
    · subst hc
      have e1 : gsubAmp ('&' :: rest) =
          '&' :: 'a' :: 'm' :: 'p' :: ';' :: gsubAmp rest := rfl
      rw [e1, count2_cons_ne y (Ne.symm hx1), count2_cons_ne y (Ne.symm hx1),
        count2_cons_ne y (Ne.symm hx2), count2_cons_ne y (Ne.symm hx3),
        count2_cons_ne y (Ne.symm hx4), count2_cons_ne y (Ne.symm hx5)]
      exact ih
    · rw [gsubAmp_cons_ne _ hc, count2_cons, count2_cons]
      refine Nat.add_le_add (count2_if_le ?_) ih
      intro hh
      rw [head?_gsubAmp]
      exact hh

theorem count2_gsubQuot_ge (x y : Char) (hx1 : x ≠ '&') (hx2 : x ≠ 'q')
    (hx3 : x ≠ 'u') (hx4 : x ≠ 'o') (hx5 : x ≠ 't') (hx6 : x ≠ ';')
    (hx7 : x ≠ '"') (hy : y ≠ '"') :
    ∀ l : List Char, count2 x y l ≤ count2 x y (gsubQuot l) := by
  intro l
  induction l with
  | nil => exact Nat.le_refl 0
  | cons c rest ih =>
    by_cases hc : c = '"'
    · subst hc
      have e1 : gsubQuot ('"' :: rest) =
          '&' :: 'q' :: 'u' :: 'o' :: 't' :: ';' :: gsubQuot rest := rfl
      rw [e1, count2_cons_ne y (Ne.symm hx7), count2_cons_ne y (Ne.symm hx1),
        count2_cons_ne y (Ne.symm hx2), count2_cons_ne y (Ne.symm hx3),
        count2_cons_ne y (Ne.symm hx4), count2_cons_ne y (Ne.symm hx5),
        count2_cons_ne y (Ne.symm hx6)]
      exact ih
    · rw [gsubQuot_cons_ne _ hc, count2_cons, count2_cons]
      refine Nat.add_le_add (count2_if_le ?_) ih
      exact fun hh => head?_gsubQuot hh hy

theorem count2_gsubApos_ge (x y : Char) (hx1 : x ≠ '&') (hx2 : x ≠ '#')
    (hx3 : x ≠ '3') (hx4 : x ≠ '9') (hx5 : x ≠ ';') (hx6 : x ≠ '\'')
    (hy : y ≠ '\'') :
    ∀ l : List Char, count2 x y l ≤ count2 x y (gsubApos l) := by
  intro l
  induction l with
  | nil => exact Nat.le_refl 0
  | cons c rest ih =>
    by_cases hc : c = '\''
    · subst hc
      have e1 : gsubApos ('\'' :: rest) =
          '&' :: '#' :: '3' :: '9' :: ';' :: gsubApos rest := rfl
      rw [e1, count2_cons_ne y (Ne.symm hx6), count2_cons_ne y (Ne.symm hx1),
        count2_cons_ne y (Ne.symm hx2), count2_cons_ne y (Ne.symm hx3),
        count2_cons_ne y (Ne.symm hx4), count2_cons_ne y (Ne.symm hx5)]
      exact ih
    · rw [gsubApos_cons_ne _ hc, count2_cons, count2_cons]
      refine Nat.add_le_add (count2_if_le ?_) ih
      exact fun hh => head?_gsubApos hh hy

theorem gsubLt_lt_esc {c : Char} (X : List Char)
    (h : ¬(c = 'i' ∨ c = '/')) :
    gsubLt ('<' :: c :: X) = '&' :: 'l' :: 't' :: ';' :: c :: gsubLt X := by
  rw [gsubLt.eq_def]
  simp [h]

theorem count2_gsubLt_ge_aux (x y : Char) (hx1 : x ≠ '&') (hx2 : x ≠ 'l')
    (hx3 : x ≠ 't') (hx4 : x ≠ ';') (hy : y ≠ '<')
    (hxy : x = '<' → y = 'i' ∨ y = '/') :
    ∀ (n : Nat) (l : List Char), l.length ≤ n →
      count2 x y l ≤ count2 x y (gsubLt l) := by
  intro n
  induction n with
  | zero =>
    intro l hl
    have h0 : l = [] := List.eq_nil_of_length_eq_zero (Nat.le_zero.mp hl)
    subst h0
    exact Nat.le_refl 0
  | succ n ih =>
    intro l hl
    match l with
    | [] => exact Nat.le_refl 0
    | c :: ls =>
      by_cases hc : c = '<'
      · subst hc
        match ls with
        | [] => exact Nat.le_refl _
        | c2 :: rest =>
          by_cases h2 : c2 = 'i' ∨ c2 = '/'
          · rw [gsubLt_lt_tag rest h2, count2_cons x y '<' (c2 :: rest),
              count2_cons x y '<' (gsubLt (c2 :: rest))]
            refine Nat.add_le_add (count2_if_le ?_)
              (ih (c2 :: rest) (by simp at hl ⊢; omega))
            intro hh
            have hcy : c2 = y := by simpa using hh
            subst hcy
            exact head?_gsubLt rfl hy
          · rw [gsubLt_lt_esc rest h2]
            have h0 : ¬('<' = x ∧ (c2 :: rest).head? = some y) := by
              rintro ⟨hx0, hh⟩
              have hcy : c2 = y := by simpa using hh
              subst hcy
              exact h2 (hxy hx0.symm)
            rw [count2_cons x y '<', if_neg h0, Nat.zero_add,
              count2_cons_ne y (Ne.symm hx1), count2_cons_ne y (Ne.symm hx2),
              count2_cons_ne y (Ne.symm hx3), count2_cons_ne y (Ne.symm hx4),
              count2_cons x y c2 rest, count2_cons x y c2 (gsubLt rest)]
            exact Nat.add_le_add
              (count2_if_le (fun hh => head?_gsubLt hh hy))
              (ih rest (by simp at hl ⊢; omega))
      · rw [gsubLt_cons_ne _ hc, count2_cons x y c ls,
          count2_cons x y c (gsubLt ls)]
        exact Nat.add_le_add
          (count2_if_le (fun hh => head?_gsubLt hh hy))
          (ih ls (by simp at hl ⊢; omega))

theorem count2_gsubLt_ge (x y : Char) (hx1 : x ≠ '&') (hx2 : x ≠ 'l')
    (hx3 : x ≠ 't') (hx4 : x ≠ ';') (hy : y ≠ '<')
    (hxy : x = '<' → y = 'i' ∨ y = '/') (l : List Char) :
    count2 x y l ≤ count2 x y (gsubLt l) :=
  count2_gsubLt_ge_aux x y hx1 hx2 hx3 hx4 hy hxy l.length l (Nat.le_refl _)

theorem gsubLtEnd_cons {c : Char} {ls : List Char}
    (h : ¬(c = '<' ∧ ls = [])) :
    gsubLtEnd (c :: ls) = c :: gsubLtEnd ls := by
  rw [gsubLtEnd.eq_def]
  split
  · rename_i heq; cases heq
  · rename_i heq
    injection heq with h1 h2
    exact absurd ⟨h1, h2⟩ h
  · rename_i c2 rest2 heq
    injection heq with h1 h2
    subst h1
    subst h2
    rfl

theorem count2_gsubLtEnd_ge (x y : Char) (hx1 : x ≠ '&') (hx2 : x ≠ 'l')
    (hx3 : x ≠ 't') (hy : y ≠ '<') :
    ∀ l : List Char, count2 x y l ≤ count2 x y (gsubLtEnd l) := by
  intro l
  induction l with
  | nil => exact Nat.le_refl 0
  | cons c ls ih =>
    by_cases hcl : c = '<' ∧ ls = []
    · rcases hcl with ⟨hc, hls⟩
      subst hc
      subst hls
      have e1 : gsubLtEnd ['<'] = ['&', 'l', 't', ';'] := rfl
      rw [e1, count2_cons_ne y (Ne.symm hx1), count2_cons_ne y (Ne.symm hx2),
        count2_cons_ne y (Ne.symm hx3)]
      exact Nat.zero_le _
    · rw [gsubLtEnd_cons hcl, count2_cons x y c ls,
        count2_cons x y c (gsubLtEnd ls)]
      exact Nat.add_le_add
        (count2_if_le (fun hh => head?_gsubLtEnd hh hy)) ih

theorem gsubGt_esc {c : Char} (X : List Char) (h : ¬c = 'i') :
    gsubGt (c :: '>' :: X) = c :: '&' :: 'g' :: 't' :: ';' :: gsubGt X := by
  rw [gsubGt.eq_def]
  simp [h]

theorem count2_gsubGt_ge_aux (x y : Char) (hx1 : x ≠ '&') (hx2 : x ≠ 'g')
    (hx3 : x ≠ 't') (hx4 : x ≠ ';') (hx5 : x ≠ '>')
    (hxy : y = '>' → x = 'i') :
    ∀ (n : Nat) (l : List Char), l.length ≤ n →
      count2 x y l ≤ count2 x y (gsubGt l) := by
  intro n
  induction n with
  | zero =>
    intro l hl
    have h0 : l = [] := List.eq_nil_of_length_eq_zero (Nat.le_zero.mp hl)
    subst h0
    exact Nat.le_refl 0
  | succ n ih =>
    intro l hl
    match l with
    | [] => exact Nat.le_refl 0
    | c :: ls =>
      match ls with
      | [] => exact Nat.le_refl _
      | c2 :: rest =>
        by_cases h2 : c2 = '>'
        · subst h2
          by_cases hci : c = 'i'
          · subst hci
            rw [gsubGt_i_gt rest, count2_cons x y 'i' ('>' :: rest),
              count2_cons x y 'i' (gsubGt ('>' :: rest))]
            refine Nat.add_le_add (count2_if_le ?_)
              (ih ('>' :: rest) (by simp at hl ⊢; omega))
            intro hh
            rw [head?_gsubGt]
            exact hh
          · rw [gsubGt_esc rest hci]
            have h0 : ¬(c = x ∧ ('>' :: rest).head? = some y) := by
              rintro ⟨hcx, hh⟩
              have hgy : '>' = y := by simpa using hh
              exact hci (hcx.trans (hxy hgy.symm))
            have h1 : ¬('>' = x ∧ rest.head? = some y) :=
              fun hand => hx5 hand.1.symm
            rw [count2_cons x y c ('>' :: rest), if_neg h0, Nat.zero_add,
              count2_cons_ne y (Ne.symm hx5), count2_cons x y c
                ('&' :: 'g' :: 't' :: ';' :: gsubGt rest),
              count2_cons_ne y (Ne.symm hx1), count2_cons_ne y (Ne.symm hx2),
              count2_cons_ne y (Ne.symm hx3), count2_cons_ne y (Ne.symm hx4)]
            exact Nat.le_trans (ih rest (by simp at hl ⊢; omega))
              (Nat.le_add_left _ _)
        · rw [gsubGt_cons_of_head (by simp [h2]),
            count2_cons x y c (c2 :: rest),
            count2_cons x y c (gsubGt (c2 :: rest))]
          refine Nat.add_le_add (count2_if_le ?_)
            (ih (c2 :: rest) (by simp at hl ⊢; omega))
          intro hh
          rw [head?_gsubGt]
          exact hh

theorem count2_gsubGt_ge (x y : Char) (hx1 : x ≠ '&') (hx2 : x ≠ 'g')
    (hx3 : x ≠ 't') (hx4 : x ≠ ';') (hx5 : x ≠ '>')
    (hxy : y = '>' → x = 'i') (l : List Char) :
    count2 x y l ≤ count2 x y (gsubGt l) :=
  count2_gsubGt_ge_aux x y hx1 hx2 hx3 hx4 hx5 hxy l.length l (Nat.le_refl _)

theorem count2_gsubGtStart_ge (x y : Char) (hx1 : x ≠ '&') (hx2 : x ≠ 'g')
    (hx3 : x ≠ 't') (hx4 : x ≠ ';') (hx5 : x ≠ '>') (l : List Char) :
    count2 x y l ≤ count2 x y (gsubGtStart l) := by
  match l with
  | [] => exact Nat.le_refl 0
  | c :: ls =>
    by_cases hc : c = '>'
    · subst hc
      have e1 : gsubGtStart ('>' :: ls) = '&' :: 'g' :: 't' :: ';' :: ls :=
        rfl
      rw [e1, count2_cons_ne y (Ne.symm hx5),
        count2_cons_ne y (Ne.symm hx1), count2_cons_ne y (Ne.symm hx2),
        count2_cons_ne y (Ne.symm hx3), count2_cons_ne y (Ne.symm hx4)]
    · rw [gsubGtStart_of_head (by simp [hc])]

theorem gsubAmp_append (u v : List Char) :
    gsubAmp (u ++ v) = gsubAmp u ++ gsubAmp v := by
  induction u with
  | nil => rfl
  | cons c rest ih =>
    by_cases hc : c = '&'
    · subst hc
      have e1 : gsubAmp ('&' :: (rest ++ v)) =
          '&' :: 'a' :: 'm' :: 'p' :: ';' :: gsubAmp (rest ++ v) := rfl
      rw [List.cons_append, e1, ih]
      rfl
    · rw [List.cons_append, gsubAmp_cons_ne _ hc, ih, gsubAmp_cons_ne _ hc,
        List.cons_append]

theorem gsubQuot_append (u v : List Char) :
    gsubQuot (u ++ v) = gsubQuot u ++ gsubQuot v := by
  induction u with
  | nil => rfl
  | cons c rest ih =>
    by_cases hc : c = '"'
    · subst hc
      have e1 : gsubQuot ('"' :: (rest ++ v)) =
          '&' :: 'q' :: 'u' :: 'o' :: 't' :: ';' :: gsubQuot (rest ++ v) :=
        rfl
      rw [List.cons_append, e1, ih]
      rfl
    · rw [List.cons_append, gsubQuot_cons_ne _ hc, ih,
        gsubQuot_cons_ne _ hc, List.cons_append]

theorem gsubApos_append (u v : List Char) :
    gsubApos (u ++ v) = gsubApos u ++ gsubApos v := by
  induction u with
  | nil => rfl
  | cons c rest ih =>
    by_cases hc : c = '\''
    · subst hc
      have e1 : gsubApos ('\'' :: (rest ++ v)) =
          '&' :: '#' :: '3' :: '9' :: ';' :: gsubApos (rest ++ v) := rfl
      rw [List.cons_append, e1, ih]
      rfl
    · rw [List.cons_append, gsubApos_cons_ne _ hc, ih,
        gsubApos_cons_ne _ hc, List.cons_append]

theorem gsubLt_trailing_aux :
    ∀ (n : Nat) (u : List Char), u.length ≤ n →
      ∃ w, gsubLt (u ++ ['<']) = w ++ ['<'] := by
  intro n
  induction n with
  | zero =>
    intro u hu
    have h0 : u = [] := List.eq_nil_of_length_eq_zero (Nat.le_zero.mp hu)
    subst h0
    exact ⟨[], rfl⟩
  | succ n ih =>
    intro u hu
    match u with
    | [] => exact ⟨[], rfl⟩
    | c :: u2 =>
      by_cases hc : c = '<'
      · subst hc
        match u2 with
        | [] => exact ⟨['&', 'l', 't', ';'], rfl⟩
        | c2 :: u3 =>
          by_cases h2 : c2 = 'i' ∨ c2 = '/'
          · rcases ih (c2 :: u3) (by simp at hu ⊢; omega) with ⟨w, hw⟩
            refine ⟨'<' :: w, ?_⟩
            rw [List.cons_append, List.cons_append, gsubLt_lt_tag _ h2]
            rw [show (c2 :: u3) ++ ['<'] = c2 :: (u3 ++ ['<']) from rfl]
              at hw
            rw [hw]
            rfl
          · rcases ih u3 (by simp at hu ⊢; omega) with ⟨w, hw⟩
            refine ⟨'&' :: 'l' :: 't' :: ';' :: c2 :: w, ?_⟩
            rw [List.cons_append, List.cons_append, gsubLt_lt_esc _ h2, hw]
            rfl
      · rcases ih u2 (by simp at hu ⊢; omega) with ⟨w, hw⟩
        refine ⟨c :: w, ?_⟩
        rw [List.cons_append, gsubLt_cons_ne _ hc, hw]
        rfl

theorem gsubLtEnd_append_lt :
    ∀ w : List Char, gsubLtEnd (w ++ ['<']) = w ++ ['&', 'l', 't', ';'] := by
  intro w
  induction w with
  | nil => rfl
  | cons c w2 ih =>
    rw [List.cons_append, gsubLtEnd_cons (by simp), ih]
    rfl

theorem gsubGt_append_suffix :
    ∀ (n : Nat) (u v : List Char), u.length ≤ n → '>' ∉ v →
      ∃ w, gsubGt (u ++ v) = w ++ v := by
  intro n
  induction n with
  | zero =>
    intro u v hu hv
    have h0 : u = [] := List.eq_nil_of_length_eq_zero (Nat.le_zero.mp hu)
    subst h0
    exact ⟨[], gsubGt_id hv⟩
  | succ n ih =>
    intro u v hu hv
    match u with
    | [] => exact ⟨[], gsubGt_id hv⟩
    | c :: u2 =>
      by_cases hhd : (u2 ++ v).head? = some '>'
      · match u2 with
        | [] =>
          exfalso
          cases v with
          | nil => cases hhd
          | cons d v2 =>
            have hd : d = '>' := by simpa using hhd
            subst hd
            exact hv (List.mem_cons_self _ _)
        | c2 :: u3 =>
          have h2 : c2 = '>' := by simpa using hhd
          subst h2
          by_cases hci : c = 'i'
          · subst hci
            rcases ih ('>' :: u3) v (by simp at hu ⊢; omega) hv with ⟨w, hw⟩
            refine ⟨'i' :: w, ?_⟩
            rw [List.cons_append, List.cons_append, gsubGt_i_gt]
            rw [show ('>' :: u3) ++ v = '>' :: (u3 ++ v) from rfl] at hw
            rw [hw]
            rfl
          · rcases ih u3 v (by simp at hu ⊢; omega) hv with ⟨w, hw⟩
            refine ⟨c :: '&' :: 'g' :: 't' :: ';' :: w, ?_⟩
            rw [List.cons_append, List.cons_append, gsubGt_esc _ hci, hw]
            rfl
      · rcases ih u2 v (by simp at hu ⊢; omega) hv with ⟨w, hw⟩
        refine ⟨c :: w, ?_⟩
        rw [List.cons_append, gsubGt_cons_of_head hhd, hw]
        rfl

theorem gsubGtStart_append_suffix (u v : List Char)
    (hv : v.head? ≠ some '>') :
    ∃ w, gsubGtStart (u ++ v) = w ++ v := by
  match u with
  | [] => exact ⟨[], gsubGtStart_of_head hv⟩
  | c :: u2 =>
    by_cases hc : c = '>'
    · subst hc
      exact ⟨'&' :: 'g' :: 't' :: ';' :: u2, rfl⟩
    · refine ⟨c :: u2, ?_⟩
      rw [List.cons_append, gsubGtStart_of_head (by simp [hc])]

theorem escapeChain_trailing_lt (u : List Char) :
    ∃ w, escapeChain (u ++ ['<']) = w ++ ['&', 'l', 't', ';'] := by
  have h1 : gsubAmp (u ++ ['<']) = gsubAmp u ++ ['<'] := by
    rw [gsubAmp_append]
    rfl
  rcases gsubLt_trailing_aux (gsubAmp u).length (gsubAmp u) (Nat.le_refl _)
    with ⟨w1, hw1⟩
  have h2 : gsubLtEnd (gsubLt (gsubAmp (u ++ ['<']))) =
      w1 ++ ['&', 'l', 't', ';'] := by
    rw [h1, hw1, gsubLtEnd_append_lt]
  rcases gsubGt_append_suffix w1.length w1 ['&', 'l', 't', ';']
    (Nat.le_refl _) (by decide) with ⟨w2, hw2⟩
  rcases gsubGtStart_append_suffix w2 ['&', 'l', 't', ';'] (by decide)
    with ⟨w3, hw3⟩
  refine ⟨gsubApos (gsubQuot w3), ?_⟩
  show gsubApos (gsubQuot (gsubGtStart (gsubGt (gsubLtEnd (gsubLt
    (gsubAmp (u ++ ['<']))))))) = _
  rw [h2, hw2, hw3, gsubQuot_append, gsubApos_append]
  rfl

/-- **C10.**  The escaping passes are purely character-based: every
two-character occurrence `<i`, `</` and `i>` of the input survives into the
output (the `<` before `i` or `/` and the `>` after `i` stay literal,
whichever way they were produced), while a `<` that ends the string is
escaped to `&lt;`. -/
theorem C10_theorem (t : List Char) :
    count2 '<' 'i' t ≤ count2 '<' 'i' (escapeChain t) ∧
    count2 '<' '/' t ≤ count2 '<' '/' (escapeChain t) ∧
    count2 'i' '>' t ≤ count2 'i' '>' (escapeChain t) ∧
    ∀ u, t = u ++ ['<'] →
      ∃ w, escapeChain t = w ++ ['&', 'l', 't', ';'] := by
  refine ⟨?_, ?_, ?_, ?_⟩
  · exact le_trans (count2_gsubAmp_ge '<' 'i' (by decide) (by decide)
        (by decide) (by decide) (by decide) t)
      (le_trans (count2_gsubLt_ge '<' 'i' (by decide) (by decide)
          (by decide) (by decide) (by decide) (fun _ => Or.inl rfl) _)
        (le_trans (count2_gsubLtEnd_ge '<' 'i' (by decide) (by decide)
            (by decide) (by decide) _)
          (le_trans (count2_gsubGt_ge '<' 'i' (by decide) (by decide)
              (by decide) (by decide) (by decide)
              (fun h => absurd h (by decide)) _)
            (le_trans (count2_gsubGtStart_ge '<' 'i' (by decide) (by decide)
                (by decide) (by decide) (by decide) _)
              (le_trans (count2_gsubQuot_ge '<' 'i' (by decide) (by decide)
                  (by decide) (by decide) (by decide) (by decide) (by decide)
                  (by decide) _)
                (count2_gsubApos_ge '<' 'i' (by decide) (by decide)
                  (by decide) (by decide) (by decide) (by decide)
                  (by decide) _))))))
  · exact le_trans (count2_gsubAmp_ge '<' '/' (by decide) (by decide)
        (by decide) (by decide) (by decide) t)
      (le_trans (count2_gsubLt_ge '<' '/' (by decide) (by decide)
          (by decide) (by decide) (by decide) (fun _ => Or.inr rfl) _)
        (le_trans (count2_gsubLtEnd_ge '<' '/' (by decide) (by decide)
            (by decide) (by decide) _)
          (le_trans (count2_gsubGt_ge '<' '/' (by decide) (by decide)
              (by decide) (by decide) (by decide)
              (fun h => absurd h (by decide)) _)
            (le_trans (count2_gsubGtStart_ge '<' '/' (by decide) (by decide)
                (by decide) (by decide) (by decide) _)
              (le_trans (count2_gsubQuot_ge '<' '/' (by decide) (by decide)
                  (by decide) (by decide) (by decide) (by decide) (by decide)
                  (by decide) _)
                (count2_gsubApos_ge '<' '/' (by decide) (by decide)
                  (by decide) (by decide) (by decide) (by decide)
                  (by decide) _))))))
  · exact le_trans (count2_gsubAmp_ge 'i' '>' (by decide) (by decide)
        (by decide) (by decide) (by decide) t)
      (le_trans (count2_gsubLt_ge 'i' '>' (by decide) (by decide)
          (by decide) (by decide) (by decide)
          (fun h => absurd h (by decide)) _)
        (le_trans (count2_gsubLtEnd_ge 'i' '>' (by decide) (by decide)
            (by decide) (by decide) _)
          (le_trans (count2_gsubGt_ge 'i' '>' (by decide) (by decide)
              (by decide) (by decide) (by decide) (fun _ => rfl) _)
            (le_trans (count2_gsubGtStart_ge 'i' '>' (by decide) (by decide)
                (by decide) (by decide) (by decide) _)
              (le_trans (count2_gsubQuot_ge 'i' '>' (by decide) (by decide)
                  (by decide) (by decide) (by decide) (by decide) (by decide)
                  (by decide) _)
                (count2_gsubApos_ge 'i' '>' (by decide) (by decide)
                  (by decide) (by decide) (by decide) (by decide)
                  (by decide) _))))))
  · intro u hu
    subst hu
    exact escapeChain_trailing_lt u

/-- **C10, witness.** -/
theorem C10_witness :
    count2 '<' 'i' ("a<img b</i c ascii> d<").data ≤
      count2 '<' 'i' (escapeChain ("a<img b</i c ascii> d<").data) ∧
    (∃ w, escapeChain ("a<img b</i c ascii> d<").data =
      w ++ ['&', 'l', 't', ';']) :=
  ⟨(C10_theorem ("a<img b</i c ascii> d<").data).1,
    (C10_theorem ("a<img b</i c ascii> d<").data).2.2.2
      ("a<img b</i c ascii> d").data (by decide)⟩
